import Mathlib

/-!
Verification of the qtum-bip38 library (file `qtum_bip38/bip38.py`) against its
natural-language specification.

Shallow embedding conventions:
* Python `bytes` values and ASCII strings are both `List Nat` (`Bytes`), one
  entry per byte / character code.
* Hex-string round trips in the source (`bytes_to_string` / `get_bytes`) are
  identity transports; slice indices on hex strings are halved accordingly.
* External cryptographic primitives (hashlib SHA-256, RIPEMD-160, the scrypt
  module, pyaes AES-256-ECB) are opaque function parameters bundled in a
  `Primitives` structure, constrained only by output lengths / byte bounds
  (`GoodPrims`).  pyaes raises on blocks that are not 16 bytes; this is
  modelled by `aesEncryptBlock` / `aesDecryptBlock` returning an error.
* Python `raise ValueError` sites are mapped to structural error kinds
  (`Err`) following the spec's error taxonomy (spec section 7).
* `qtum_bip38/utils.py` and `qtum_bip38/libs/base58.py` are imported by the
  source but are not present in the source tree; they are modelled from the
  spec (see the doc comments starting with `Modelled from the spec:`).
-/

namespace QtumBip38

abbrev Bytes := List Nat

/-- A byte list is valid when every entry fits in one byte. -/
def ValidBytes (bs : Bytes) : Prop := ∀ x ∈ bs, x < 256

instance : DecidablePred ValidBytes := fun bs => by
  unfold ValidBytes; infer_instance

/-! ### Big-endian digit machinery

`Nat.digits` in Mathlib is defined by well-founded recursion, which the kernel
cannot evaluate on literals; `digitsFuel` is a structurally recursive clone,
proven equal to `Nat.digits`, so that concrete witnesses evaluate by `decide`
or `rfl`. -/

def digitsFuel (b : Nat) : Nat → Nat → List Nat
  | 0, _ => []
  | _ + 1, 0 => []
  | fuel + 1, n + 1 => (n + 1) % b :: digitsFuel b fuel ((n + 1) / b)

theorem digitsFuel_eq_digits (b : Nat) (hb : 1 < b) :
    ∀ fuel n, n ≤ fuel → digitsFuel b fuel n = Nat.digits b n := by
  intro fuel
  induction fuel with
  | zero => intro n hn; interval_cases n; simp [digitsFuel]
  | succ fuel ih =>
    intro n hn
    match n with
    | 0 => simp [digitsFuel]
    | n + 1 =>
      rw [digitsFuel, Nat.digits_def' hb (Nat.succ_pos n), ih]
      exact Nat.le_of_lt_succ (Nat.lt_of_lt_of_le
        (Nat.div_lt_self (Nat.succ_pos n) hb) hn)

/-- Little-endian digits of `n` in base `b`, kernel-evaluable. -/
def natDigits (b n : Nat) : List Nat := digitsFuel b n n

theorem natDigits_eq (b : Nat) (hb : 1 < b) (n : Nat) :
    natDigits b n = Nat.digits b n :=
  digitsFuel_eq_digits b hb n n le_rfl

/-- Big-endian value of a digit list in base `b`, as an accumulator fold. -/
def ofBaseBE (b : Nat) (ds : List Nat) : Nat :=
  ds.foldl (fun a c => a * b + c) 0

theorem foldl_base_eq (b : Nat) (ds : List Nat) :
    ∀ a : Nat, ds.foldl (fun a c => a * b + c) a =
      a * b ^ ds.length + Nat.ofDigits b ds.reverse := by
  induction ds with
  | nil => intro a; simp [Nat.ofDigits]
  | cons c tl ih =>
    intro a
    rw [List.foldl_cons, ih, List.reverse_cons, Nat.ofDigits_append]
    simp [Nat.ofDigits_singleton, List.length_cons, Nat.pow_succ]
    ring

theorem ofBaseBE_eq (b : Nat) (ds : List Nat) :
    ofBaseBE b ds = Nat.ofDigits b ds.reverse := by
  unfold ofBaseBE; rw [foldl_base_eq]; simp

/-- Big-endian digits of `n` in base `b` (minimal width, `0 ↦ []`). -/
def natDigitsBE (b n : Nat) : List Nat := (natDigits b n).reverse

theorem ofBaseBE_natDigitsBE (b : Nat) (hb : 1 < b) (n : Nat) :
    ofBaseBE b (natDigitsBE b n) = n := by
  rw [ofBaseBE_eq, natDigitsBE, List.reverse_reverse, natDigits_eq b hb,
    Nat.ofDigits_digits]

theorem natDigitsBE_ofBaseBE (b : Nat) (hb : 1 < b) (ds : List Nat)
    (hlt : ∀ d ∈ ds, d < b) (hhead : ds.head? ≠ some 0) :
    natDigitsBE b (ofBaseBE b ds) = ds := by
  rw [ofBaseBE_eq, natDigitsBE, natDigits_eq b hb]
  rw [Nat.digits_ofDigits b hb ds.reverse
    (fun d hd => hlt d (List.mem_reverse.mp hd))
    (fun h => by
      have hds : ds ≠ [] := fun hh => by simp [hh] at h
      obtain ⟨d, tl, rfl⟩ := List.exists_cons_of_ne_nil hds
      have hd0 : d ≠ 0 := fun hh => hhead (by simp [hh])
      have hval : (d :: tl).reverse.getLast h = d := by
        have h2 : (d :: tl).reverse.getLast? = some d := by simp
        rwa [List.getLast?_eq_getLast_of_ne_nil h, Option.some_inj] at h2
      rw [hval]; exact hd0)]
  exact List.reverse_reverse ds

theorem natDigitsBE_lt (b n : Nat) (hb : 1 < b) :
    ∀ d ∈ natDigitsBE b n, d < b := by
  intro d hd
  rw [natDigitsBE, natDigits_eq b hb] at hd
  exact Nat.digits_lt_base hb (List.mem_reverse.mp hd)

theorem natDigitsBE_head_ne_zero (b n : Nat) (hb : 1 < b) (hn : n ≠ 0) :
    (natDigitsBE b n).head? ≠ some 0 := by
  rw [natDigitsBE, natDigits_eq b hb]
  have hne : Nat.digits b n ≠ [] := Nat.digits_ne_nil_iff_ne_zero.mpr hn
  rw [List.head?_reverse, List.getLast?_eq_getLast_of_ne_nil hne]
  intro h
  exact Nat.getLast_digit_ne_zero b hn (by injection h)

theorem ofBaseBE_lt (b : Nat) (hb : 1 < b) (ds : List Nat)
    (hlt : ∀ d ∈ ds, d < b) : ofBaseBE b ds < b ^ ds.length := by
  rw [ofBaseBE_eq]
  have := Nat.ofDigits_lt_base_pow_length hb
    (l := ds.reverse) (fun d hd => hlt d (List.mem_reverse.mp hd))
  simpa using this

theorem natDigitsBE_len_le (b : Nat) (hb : 1 < b) (n k : Nat)
    (h : n < b ^ k) : (natDigitsBE b n).length ≤ k := by
  rw [natDigitsBE, List.length_reverse, natDigits_eq b hb]
  by_contra hgt
  push_neg at hgt
  have hn : n ≠ 0 := by
    intro h0
    subst h0
    simp at hgt
  have h1 : b ^ (k + 1) ≤ b ^ (Nat.digits b n).length :=
    Nat.pow_le_pow_right (by omega) hgt
  have h2 := Nat.base_pow_length_digits_le b n hb hn
  have h3 : b * b ^ k ≤ b * n := by
    calc b * b ^ k = b ^ (k + 1) := by ring
      _ ≤ b ^ (Nat.digits b n).length := h1
      _ ≤ b * n := h2
  have : b ^ k ≤ n := Nat.le_of_mul_le_mul_left h3 (by omega)
  omega

theorem natDigitsBE_len_eq (b : Nat) (hb : 1 < b) (n k : Nat)
    (hlo : b ^ k ≤ n) (hhi : n < b ^ (k + 1)) :
    (natDigitsBE b n).length = k + 1 := by
  have hn : n ≠ 0 := by
    intro h; rw [h] at hlo
    exact absurd (Nat.pos_pow_of_pos k (Nat.lt_of_lt_of_le Nat.zero_lt_one hb.le) |>.trans_le hlo) (lt_irrefl 0)
  rw [natDigitsBE, List.length_reverse, natDigits_eq b hb,
    Nat.digits_len b n hb hn, Nat.log_eq_of_pow_le_of_lt_pow hlo hhi]

/-! ### Python slicing and the missing utils module -/

/-- Python slice `l[a:b]` (for `0 ≤ a ≤ b`; both indices clamp). -/
def slice (a b : Nat) (l : Bytes) : Bytes := (l.take b).drop a

/-- Modelled from the spec: `integer_to_bytes` of the missing
`qtum_bip38/utils.py` — big-endian with the minimum width needed when no
width is given (spec section 4.2); the integer `0` therefore encodes to the
empty byte string, matching `int.to_bytes` on a zero bit length. -/
def integerToBytes (n : Nat) : Bytes := natDigitsBE 256 n

/-- Modelled from the spec: `integer_to_bytes` with an explicit width — fixed
width big-endian, left-padded with zeros (spec section 4.2). -/
def integerToBytesW (w n : Nat) : Bytes :=
  List.replicate (w - (natDigitsBE 256 n).length) 0 ++ natDigitsBE 256 n

/-- Modelled from the spec: `bytes_to_integer` of the missing utils module —
big-endian interpretation of a byte string. -/
def bytesToInteger (bs : Bytes) : Nat := ofBaseBE 256 bs

theorem bytesToInteger_integerToBytes (n : Nat) :
    bytesToInteger (integerToBytes n) = n :=
  ofBaseBE_natDigitsBE 256 (by omega) n

theorem integerToBytes_bytesToInteger (bs : Bytes) (h : ValidBytes bs)
    (hhead : bs.head? ≠ some 0) : integerToBytes (bytesToInteger bs) = bs :=
  natDigitsBE_ofBaseBE 256 (by omega) bs h hhead

theorem integerToBytes_valid (n : Nat) : ValidBytes (integerToBytes n) :=
  fun d hd => natDigitsBE_lt 256 n (by omega) d hd

theorem bytesToInteger_lt (bs : Bytes) (h : ValidBytes bs) :
    bytesToInteger bs < 256 ^ bs.length :=
  ofBaseBE_lt 256 (by omega) bs h

theorem integerToBytes_len_le (n k : Nat) (h : n < 256 ^ k) :
    (integerToBytes n).length ≤ k :=
  natDigitsBE_len_le 256 (by omega) n k h

theorem integerToBytes_len_eq (n k : Nat) (hlo : 256 ^ k ≤ n)
    (hhi : n < 256 ^ (k + 1)) : (integerToBytes n).length = k + 1 :=
  natDigitsBE_len_eq 256 (by omega) n k hlo hhi

/-! ### Base58 codec (spec section 4.2) -/

/-- Modelled from the spec: the Base58 alphabet of the missing
`qtum_bip38/libs/base58.py`, `123456789ABCDEFGHJKLMNPQRSTUVWXYZ`
`abcdefghijkmnopqrstuvwxyz`, as ASCII codes. -/
def b58alphabet : Bytes :=
  [49, 50, 51, 52, 53, 54, 55, 56, 57,
   65, 66, 67, 68, 69, 70, 71, 72,
   74, 75, 76, 77, 78,
   80, 81, 82, 83, 84, 85, 86, 87, 88, 89, 90,
   97, 98, 99, 100, 101, 102, 103, 104, 105, 106, 107,
   109, 110, 111, 112, 113, 114, 115, 116, 117, 118, 119, 120, 121, 122]

/-- Character of the Base58 alphabet at a digit position. -/
def b58charAt (d : Nat) : Nat := b58alphabet.getD d 0

/-- Modelled from the spec: raw Base58 `encode` of the missing
`qtum_bip38/libs/base58.py` — leading zero bytes become leading `1`
characters (ASCII 49), the rest is the big-endian base-58 expansion of the
byte string's value. -/
def b58encode (bs : Bytes) : Bytes :=
  List.replicate (bs.takeWhile (· == 0)).length 49 ++
    (natDigitsBE 58 (bytesToInteger bs)).map b58charAt

/-- Index of a character in the Base58 alphabet (`none` for foreign chars). -/
def b58charIndex (c : Nat) : Option Nat := b58alphabet.findIdx? (· == c)

/-- Option-valued map used by the Base58 decoder, structurally recursive so
that the kernel can evaluate it. -/
def mapOption (f : Nat → Option Nat) : Bytes → Option Bytes
  | [] => some []
  | c :: tl =>
    match f c, mapOption f tl with
    | some d, some ds => some (d :: ds)
    | _, _ => none

/-- Modelled from the spec: raw Base58 `decode` of the missing
`qtum_bip38/libs/base58.py` — inverse of `b58encode`; foreign characters
make it fail. -/
def b58decode (s : Bytes) : Option Bytes :=
  (mapOption b58charIndex s).map (fun ds =>
    List.replicate (s.takeWhile (· == 49)).length 0 ++
      natDigitsBE 256 (ofBaseBE 58 ds))

theorem ofBaseBE_replicate_zero_append (b z : Nat) (rest : Bytes) :
    ofBaseBE b (List.replicate z 0 ++ rest) = ofBaseBE b rest := by
  unfold ofBaseBE
  rw [List.foldl_append]
  congr 1
  induction z with
  | zero => rfl
  | succ z ih => simpa [List.replicate_succ] using ih

theorem dropWhile_zero_head (bs : Bytes) :
    (bs.dropWhile (· == 0)).head? ≠ some 0 := by
  induction bs with
  | nil => simp [List.dropWhile]
  | cons c tl ih =>
    by_cases hc : c = 0
    · simpa [List.dropWhile_cons, hc] using ih
    · simp [List.dropWhile_cons, hc]

theorem takeWhile_nil_of_head (p : Nat → Bool) (l : Bytes)
    (h : ∀ c, l.head? = some c → p c = false) : l.takeWhile p = [] := by
  cases l with
  | nil => rfl
  | cons c tl =>
    rw [List.takeWhile_cons, h c rfl]
    simp

theorem takeWhile_eq_replicate_zero (bs : Bytes) :
    bs.takeWhile (· == 0) = List.replicate (bs.takeWhile (· == 0)).length 0 := by
  rw [List.eq_replicate_iff]
  refine ⟨rfl, ?_⟩
  intro x hx
  have := List.mem_takeWhile_imp hx
  simpa using this

theorem mapOption_append (f : Nat → Option Nat) (xs ys : Bytes)
    (as bs : Bytes) (hx : mapOption f xs = some as)
    (hy : mapOption f ys = some bs) :
    mapOption f (xs ++ ys) = some (as ++ bs) := by
  induction xs generalizing as with
  | nil =>
    simp [mapOption] at hx
    subst hx
    simpa using hy
  | cons c tl ih =>
    rw [List.cons_append, mapOption]
    rw [mapOption] at hx
    cases hfc : f c with
    | none => rw [hfc] at hx; simp at hx
    | some d =>
      rw [hfc] at hx
      cases htl : mapOption f tl with
      | none => rw [htl] at hx; simp at hx
      | some ds =>
        rw [htl] at hx
        simp at hx
        subst hx
        rw [ih ds htl]
        simp

theorem mapOption_replicate_one (z : Nat) :
    mapOption b58charIndex (List.replicate z 49) = some (List.replicate z 0) := by
  induction z with
  | zero => rfl
  | succ z ih =>
    rw [List.replicate_succ, List.replicate_succ, mapOption, ih]
    rfl

theorem b58charIndex_charAt (d : Nat) (hd : d < 58) :
    b58charIndex (b58charAt d) = some d := by
  revert hd
  revert d
  decide

theorem mapOption_map_alphabet (ds : List Nat) (h : ∀ d ∈ ds, d < 58) :
    mapOption b58charIndex (ds.map b58charAt) = some ds := by
  induction ds with
  | nil => rfl
  | cons d tl ih =>
    rw [List.map_cons, mapOption,
      b58charIndex_charAt d (h d (List.mem_cons_self d tl)),
      ih (fun x hx => h x (List.mem_cons_of_mem d hx))]

theorem takeWhile_replicate_append (a z : Nat) (p : Nat → Bool) (hp : p a)
    (rest : Bytes) :
    (List.replicate z a ++ rest).takeWhile p =
      List.replicate z a ++ rest.takeWhile p := by
  induction z with
  | zero => rfl
  | succ z ih => simp [List.replicate_succ, List.takeWhile_cons, hp, ih]

theorem charAt_ne_one (d : Nat) (hd : d < 58) (hne : d ≠ 0) :
    b58charAt d ≠ 49 := by
  revert hne hd
  revert d
  decide

theorem charAt_lt (d : Nat) (hd : d < 58) : b58charAt d < 256 := by
  revert hd
  revert d
  decide

theorem mapped_head_not_one (w : Nat) :
    ∀ c, ((natDigitsBE 58 w).map b58charAt).head? = some c → (c == 49) = false := by
  have h58 : (1 : Nat) < 58 := by omega
  intro c hc
  cases hd : natDigitsBE 58 w with
  | nil => rw [hd] at hc; simp at hc
  | cons d tl =>
    rw [hd] at hc
    simp only [List.map_cons, List.head?_cons, Option.some_inj] at hc
    have hwne : w ≠ 0 := by
      intro h0
      rw [h0] at hd
      exact List.cons_ne_nil d tl hd.symm
    have hd0 : d ≠ 0 := by
      have hh := natDigitsBE_head_ne_zero 58 w h58 hwne
      rw [hd] at hh
      simpa using hh
    have hlt : d < 58 :=
      natDigitsBE_lt 58 w h58 d (hd ▸ List.mem_cons_self d tl)
    rw [← hc]
    simpa using charAt_ne_one d hlt hd0

theorem b58decode_encode_core (z : Nat) (rest : Bytes) (hv : ValidBytes rest)
    (hh : rest.head? ≠ some 0) :
    b58decode (b58encode (List.replicate z 0 ++ rest)) =
      some (List.replicate z 0 ++ rest) := by
  have h58 : (1 : Nat) < 58 := by omega
  have htw0 : (List.replicate z 0 ++ rest).takeWhile (· == 0) =
      List.replicate z 0 := by
    rw [takeWhile_replicate_append 0 z _ (by simp) rest,
      takeWhile_nil_of_head _ _ ?hc, List.append_nil]
    case hc =>
      intro c hcs
      have : c ≠ 0 := fun h0 => hh (h0 ▸ hcs)
      simpa using this
  have hvrest : bytesToInteger (List.replicate z 0 ++ rest) =
      bytesToInteger rest := ofBaseBE_replicate_zero_append 256 z rest
  have hdslt : ∀ d ∈ natDigitsBE 58 (bytesToInteger rest), d < 58 :=
    natDigitsBE_lt 58 (bytesToInteger rest) h58
  have hmap := mapOption_append b58charIndex (List.replicate z 49)
    ((natDigitsBE 58 (bytesToInteger rest)).map b58charAt)
    (List.replicate z 0) (natDigitsBE 58 (bytesToInteger rest))
    (mapOption_replicate_one z) (mapOption_map_alphabet _ hdslt)
  have htw49 : (List.replicate z 49 ++
      (natDigitsBE 58 (bytesToInteger rest)).map b58charAt).takeWhile (· == 49) =
      List.replicate z 49 := by
    rw [takeWhile_replicate_append 49 z _ (by simp) _,
      takeWhile_nil_of_head _ _ (mapped_head_not_one (bytesToInteger rest)),
      List.append_nil]
  rw [b58encode, htw0, List.length_replicate, hvrest, b58decode, hmap,
    Option.map_some', htw49, List.length_replicate]
  congr 1
  rw [ofBaseBE_replicate_zero_append, ofBaseBE_natDigitsBE 58 h58]
  unfold bytesToInteger
  rw [natDigitsBE_ofBaseBE 256 (by omega) rest hv hh]

/-- Base58 decode inverts Base58 encode on valid byte strings. -/
theorem b58decode_encode (bs : Bytes) (h : ValidBytes bs) :
    b58decode (b58encode bs) = some bs := by
  have hsplit : List.replicate (bs.takeWhile (· == 0)).length 0 ++
      bs.dropWhile (· == 0) = bs := by
    conv_rhs => rw [← List.takeWhile_append_dropWhile (p := (· == 0)) (l := bs)]
    rw [← takeWhile_eq_replicate_zero]
  rw [← hsplit]
  exact b58decode_encode_core _ _
    (fun x hx => h x (by rw [← hsplit]; exact List.mem_append_right _ hx))
    (dropWhile_zero_head bs)

/-- The Base58 encoding of a valid byte string consists of alphabet
characters only. -/
theorem b58encode_valid (bs : Bytes) : ValidBytes (b58encode bs) := by
  intro x hx
  rw [b58encode] at hx
  rcases List.mem_append.mp hx with hx | hx
  · have := List.eq_of_mem_replicate hx
    omega
  · obtain ⟨d, hd, rfl⟩ := List.mem_map.mp hx
    exact charAt_lt d (natDigitsBE_lt 58 _ (by omega) d hd)

/-! ### External primitives

SHA-256, RIPEMD-160, scrypt and AES-256-ECB come from external packages
(hashlib, scrypt, pyaes); they are opaque parameters of the embedding. -/

structure Primitives where
  sha256 : Bytes → Bytes
  ripemd160 : Bytes → Bytes
  scrypt : Bytes → Bytes → Nat → Nat → Nat → Nat → Bytes
  aesEncrypt : Bytes → Bytes → Bytes
  aesDecrypt : Bytes → Bytes → Bytes
  nfc : Bytes → Bytes

/-- Well-formedness of the primitive bundle: correct output lengths and
byte-valued outputs, as guaranteed by the real libraries. -/
structure GoodPrims (pr : Primitives) : Prop where
  sha_len : ∀ bs, (pr.sha256 bs).length = 32
  sha_valid : ∀ bs, ValidBytes (pr.sha256 bs)
  ripemd_len : ∀ bs, (pr.ripemd160 bs).length = 20
  ripemd_valid : ∀ bs, ValidBytes (pr.ripemd160 bs)
  scrypt_len : ∀ pw salt n r p dk, (pr.scrypt pw salt n r p dk).length = dk
  scrypt_valid : ∀ pw salt n r p dk, ValidBytes (pr.scrypt pw salt n r p dk)
  aes_enc_len : ∀ k b, b.length = 16 → (pr.aesEncrypt k b).length = 16
  aes_enc_valid : ∀ k b, b.length = 16 → ValidBytes b →
    ValidBytes (pr.aesEncrypt k b)

/-- Structural error kinds for the `raise ValueError` sites, following the
spec's error taxonomy (spec section 7).  `aesBlockLength` is the pyaes
error for blocks that are not 16 bytes. -/
inductive Err where
  | invalidEncoding
  | invalidLength
  | invalidPrefixByte
  | invalidFlag
  | invalidMagic
  | invalidParameter
  | invalidScalar
  | incorrectPassphrase
  | aesBlockLength
  deriving DecidableEq, Repr

inductive Network where
  | mainnet
  | testnet
  deriving DecidableEq, Repr

inductive WifType where
  | wif
  | wifCompressed
  deriving DecidableEq, Repr

inductive PubKeyType where
  | uncompressed
  | compressed
  deriving DecidableEq, Repr

/-! ### Constants of `bip38.py` -/

def wifVersionByte : Network → Nat
  | .mainnet => 0x80
  | .testnet => 0xef

def addressVersionByte : Network → Nat
  | .mainnet => 0x3a
  | .testnet => 0x78

def magicLotSeq : Nat := 0x2ce9b3e1ff39e251
def magicNoLotSeq : Nat := 0x2ce9b3e1ff39e253
def confCodeMarker : Nat := 0x643bf6a89a

/-- The secp256k1 field prime. -/
def secpP : Nat :=
  2 ^ 256 - 2 ^ 32 - 2 ^ 9 - 2 ^ 8 - 2 ^ 7 - 2 ^ 6 - 2 ^ 4 - 1

/-- The secp256k1 group order. -/
def secpN : Nat :=
  0xFFFFFFFFFFFFFFFFFFFFFFFFFFFFFFFEBAAEDCE6AF48A03BBFD25E8CD0364141

/-- The secp256k1 generator point. -/
def gPoint : Int × Int :=
  (55066263022277343669578718895168534326250603453777594175500187360389116729240,
   32670510020758816978083085130507043184471273380659243275938904335757337482424)

def flagsCompression : List Nat :=
  [0x20, 0x24, 0x28, 0x2c, 0x30, 0x34, 0x38, 0x3c, 0xe0, 0xe8, 0xf0, 0xf8]

def flagsLotSeq : List Nat :=
  [0x04, 0x24, 0x0c, 0x14, 0x1c, 0x2c, 0x34, 0x3c]

def flagsNonEc : List Nat :=
  [0xc0, 0xe0, 0xc8, 0xd0, 0xd8, 0xe8, 0xf0, 0xf8]

def flagsEc : List Nat :=
  [0x00, 0x04, 0x08, 0x0c, 0x10, 0x14, 0x18, 0x1c,
   0x20, 0x24, 0x28, 0x2c, 0x30, 0x34, 0x38, 0x3c]

def flagsIllegal : List Nat :=
  [0xc4, 0xcc, 0xd4, 0xdc, 0xe4, 0xec, 0xf4, 0xfc]

/-! ### Elliptic-curve arithmetic (`mod_inv`, `ec_add`, `ec_double`,
`ecc_multiply`, `pow_mod`), fuel-based so the kernel can evaluate them. -/

/-- Loop of `mod_inv` (extended Euclid); state order is
`(lm, hm, resto, high)` exactly as in the source. -/
def modInvLoop : Nat → Int → Int → Int → Int → Int
  | 0, lm, _, _, _ => lm
  | fuel + 1, lm, hm, resto, high =>
    if resto > 1 then
      let rq := high / resto
      modInvLoop fuel (hm - lm * rq) lm (high - resto * rq) resto
    else lm

/-- `mod_inv(a, n)`: modular inverse by the extended Euclidean algorithm;
the fuel bound dominates the iteration count (`resto` strictly decreases
and starts below `n`). -/
def modInv (a n : Int) : Int :=
  modInvLoop (n.natAbs + 2) 1 0 (a % n) n % n

def ecAdd (a b : Int × Int) : Int × Int :=
  let lamAdd := ((b.2 - a.2) * modInv (b.1 - a.1) (secpP : Int)) % (secpP : Int)
  let x := (lamAdd * lamAdd - a.1 - b.1) % (secpP : Int)
  let y := (lamAdd * (a.1 - x) - a.2) % (secpP : Int)
  (x, y)

def ecDouble (a : Int × Int) : Int × Int :=
  let lam := ((3 * a.1 * a.1 + 0) * modInv (2 * a.2) (secpP : Int)) % (secpP : Int)
  let x := (lam * lam - 2 * a.1) % (secpP : Int)
  let y := (lam * (a.1 - x) - a.2) % (secpP : Int)
  (x, y)

/-- `ecc_multiply`: double-and-add over the binary expansion of the scalar
with the most significant bit dropped (accumulator initialised to the
input point). -/
def eccMultiply (gen : Int × Int) (d : Nat) : Except Err (Int × Int) :=
  if d = 0 ∨ d ≥ secpN then .error .invalidScalar
  else .ok ((natDigitsBE 2 d).tail.foldl
    (fun q bit =>
      let qd := ecDouble q
      if bit = 1 then ecAdd qd gen else qd) gen)

/-- Loop of `pow_mod`; state order is `(n, x, y)` as in the source. -/
def powModLoop (z : Nat) : Nat → Nat → Nat → Nat → Nat
  | 0, n, _, _ => n
  | fuel + 1, n, x, y =>
    if y = 0 then n
    else powModLoop z fuel (if y % 2 = 1 then n * x % z else n) (x * x % z) (y / 2)

/-- `pow_mod(x, y, z)`: iterative modular exponentiation. -/
def powMod (x y z : Nat) : Nat := powModLoop z (y + 1) 1 x y

/-! ### Hashing helpers and AES block wrappers -/

/-- Modelled from the spec: `double_sha256` of the missing utils module. -/
def doubleSha256 (pr : Primitives) (bs : Bytes) : Bytes :=
  pr.sha256 (pr.sha256 bs)

/-- Modelled from the spec: `hash160` of the missing utils module,
RIPEMD-160 of SHA-256. -/
def hash160 (pr : Primitives) (bs : Bytes) : Bytes :=
  pr.ripemd160 (pr.sha256 bs)

def getChecksum (pr : Primitives) (raw : Bytes) : Bytes :=
  (doubleSha256 pr raw).take 4

/-- pyaes `AESModeOfOperationECB.encrypt`: demands exactly 16 input bytes. -/
def aesEncryptBlock (pr : Primitives) (key blk : Bytes) : Except Err Bytes :=
  if blk.length = 16 then .ok (pr.aesEncrypt key blk) else .error .aesBlockLength

/-- pyaes `AESModeOfOperationECB.decrypt`: demands exactly 16 input bytes. -/
def aesDecryptBlock (pr : Primitives) (key blk : Bytes) : Except Err Bytes :=
  if blk.length = 16 then .ok (pr.aesDecrypt key blk) else .error .aesBlockLength

/-- Modelled from the spec: Base58Check `check_encode` of the missing
`qtum_bip38/libs/base58.py` — append the 4-byte checksum, then Base58. -/
def b58checkEncode (pr : Primitives) (payload : Bytes) : Bytes :=
  b58encode (payload ++ getChecksum pr payload)

/-- A raised Python exception from a fallible library call (`None` case)
becomes an `Except` error. -/
def liftOption (o : Option Bytes) (e : Err) : Except Err Bytes :=
  match o with
  | some r => Except.ok r
  | none => Except.error e

/-- Modelled from the spec: Base58Check `check_decode` of the missing
`qtum_bip38/libs/base58.py` — decode, verify the trailing checksum, strip. -/
def b58checkDecode (pr : Primitives) (s : Bytes) : Except Err Bytes := do
  let raw ← liftOption (b58decode s) Err.invalidEncoding
  let payload := raw.take (raw.length - 4)
  let chk := raw.drop (raw.length - 4)
  if getChecksum pr payload = chk then pure payload
  else throw Err.invalidEncoding

/-! ### Public-key conversions -/

/-- Python `-y % m` for `y ≥ 0`. -/
def pyNegMod (y m : Nat) : Nat := (m - y % m) % m

/-- `uncompress_public_key`. -/
def uncompressPublicKey (pk : Bytes) : Bytes :=
  let yp : Int := (bytesToInteger (pk.take 1) : Int) - 2
  let x := bytesToInteger (pk.drop 1)
  let a := (powMod x 3 secpP + 7) % secpP
  let y0 := powMod a ((secpP + 1) / 4) secpP
  let y := if (y0 % 2 : Int) ≠ yp then pyNegMod y0 secpP else y0
  [4] ++ integerToBytes x ++ integerToBytes y

/-- `compress_public_key`. -/
def compressPublicKey (pk : Bytes) : Bytes :=
  let x := slice 1 33 pk
  let y := pk.drop 33
  if bytesToInteger y % 2 = 1 then [3] ++ x else [2] ++ x

/-- `multiply_private_key`. -/
def multiplyPrivateKey (k1 k2 : Bytes) : Bytes :=
  integerToBytes (bytesToInteger k1 * bytesToInteger k2 % secpN)

/-- `private_key_to_public_key`. -/
def privateKeyToPublicKey (sk : Bytes) (t : PubKeyType) : Except Err Bytes := do
  let q ← eccMultiply gPoint (bytesToInteger sk)
  match t with
  | .uncompressed =>
    pure ([4] ++ integerToBytes q.1.toNat ++ integerToBytes q.2.toNat)
  | .compressed =>
    pure ((if q.2.toNat % 2 = 1 then [3] else [2]) ++ integerToBytes q.1.toNat)

/-- `multiply_public_key`. -/
def multiplyPublicKey (pk sk : Bytes) (t : PubKeyType) : Except Err Bytes := do
  let pk2 := if pk.length = 33 then uncompressPublicKey pk else pk
  let q ← eccMultiply
    ((bytesToInteger (slice 1 33 pk2) : Int), (bytesToInteger (pk2.drop 33) : Int))
    (bytesToInteger sk)
  match t with
  | .uncompressed =>
    pure ([4] ++ integerToBytes q.1.toNat ++ integerToBytes q.2.toNat)
  | .compressed =>
    pure (compressPublicKey
      ([4] ++ integerToBytes q.1.toNat ++ integerToBytes q.2.toNat))

/-! ### WIF codec and addresses -/

/-- `encode_wif`: the `(wif, wif_compressed)` pair. -/
def encodeWif (pr : Primitives) (sk : Bytes) (net : Network) :
    Except Err (Bytes × Bytes) :=
  if sk.length ≠ 32 then .error .invalidParameter
  else
    let p1 := [wifVersionByte net] ++ sk
    let p2 := [wifVersionByte net] ++ sk ++ [1]
    .ok (b58encode (p1 ++ getChecksum pr p1), b58encode (p2 ++ getChecksum pr p2))

/-- `private_key_to_wif`. -/
def privateKeyToWif (pr : Primitives) (sk : Bytes) (t : WifType)
    (net : Network) : Except Err Bytes :=
  match encodeWif pr sk net with
  | .error e => .error e
  | .ok pair =>
    match t with
    | .wif => .ok pair.1
    | .wifCompressed => .ok pair.2

/-- Version-byte-independent tail of `decode_wif`: split off the checksum,
classify by the inner length.  The checksum is extracted but never
verified, exactly as in the source. -/
def decodeWifTail (raw : Bytes) (network : Network) :
    Except Err (Bytes × WifType × Bytes × Network) :=
  let rawNoV := raw.drop 1
  let checksum := rawNoV.drop (rawNoV.length - 4)
  let privKey := rawNoV.take (rawNoV.length - 4)
  if privKey.length = 33 then
    .ok (privKey.take 32, WifType.wifCompressed, checksum, network)
  else if privKey.length = 32 then
    .ok (privKey, WifType.wif, checksum, network)
  else .error Err.invalidLength

/-- `decode_wif` on already-Base58-decoded bytes: detect the network from
the version byte, then split. -/
def decodeWifRaw (raw : Bytes) :
    Except Err (Bytes × WifType × Bytes × Network) :=
  if raw.take 1 = [wifVersionByte .mainnet] then
    decodeWifTail raw Network.mainnet
  else if raw.take 1 = [wifVersionByte .testnet] then
    decodeWifTail raw Network.testnet
  else .error Err.invalidPrefixByte

/-- `decode_wif`. -/
def decodeWif (w : Bytes) :
    Except Err (Bytes × WifType × Bytes × Network) :=
  match b58decode w with
  | none => .error .invalidEncoding
  | some raw => decodeWifRaw raw

/-- `wif_to_private_key`. -/
def wifToPrivateKey (w : Bytes) : Except Err Bytes :=
  (decodeWif w).map (·.1)

/-- `get_wif_type`. -/
def getWifType (w : Bytes) : Except Err WifType :=
  (decodeWif w).map (·.2.1)

/-- `get_wif_checksum`. -/
def getWifChecksum (w : Bytes) : Except Err Bytes :=
  (decodeWif w).map (·.2.2.1)

/-- `get_wif_network`. -/
def getWifNetwork (w : Bytes) : Except Err Network :=
  (decodeWif w).map (·.2.2.2)

/-- `public_key_to_addresses`. -/
def publicKeyToAddresses (pr : Primitives) (pk : Bytes) (net : Network) : Bytes :=
  let payload := [addressVersionByte net] ++ hash160 pr pk
  b58encode (payload ++ getChecksum pr payload)

/-! ### BIP38 operations -/

/-- Python truthiness of an optional integer argument (`None` and `0` are
falsy) — the source validates `lot` / `sequence` with truthiness. -/
def truthy : Option Nat → Bool
  | none => false
  | some n => n != 0

/-- `intermediate_code`.  `owner_salt` is explicit here; the module-level
default (`os.urandom(8)` evaluated once at import) is `ModuleDefaults`. -/
def intermediateCode (pr : Primitives) (pass : Bytes) (lot seqn : Option Nat)
    (ownerSalt : Bytes) : Except Err Bytes := do
  if ownerSalt.length ≠ 4 ∧ ownerSalt.length ≠ 8 then
    throw Err.invalidParameter
  if ownerSalt.length = 4 ∧ (truthy lot = false ∨ truthy seqn = false) then
    throw Err.invalidParameter
  if (truthy lot = true ∧ truthy seqn = false) ∨
      (truthy lot = false ∧ truthy seqn = true) then
    throw Err.invalidParameter
  if truthy lot = true ∧ truthy seqn = true then
    let l := lot.getD 0
    let s := seqn.getD 0
    if ¬(100000 ≤ l ∧ l ≤ 999999) then throw Err.invalidParameter
    if ¬(s ≤ 4095) then throw Err.invalidParameter
    let preFactor := pr.scrypt (pr.nfc pass) (ownerSalt.take 4) 16384 8 8 32
    let ownerEntropy := ownerSalt.take 4 ++ integerToBytesW 4 (l * 4096 + s)
    let passFactor := doubleSha256 pr (preFactor ++ ownerEntropy)
    let passPoint ← privateKeyToPublicKey passFactor .compressed
    pure (b58checkEncode pr
      (integerToBytes magicLotSeq ++ ownerEntropy ++ passPoint))
  else
    let passFactor := pr.scrypt (pr.nfc pass) ownerSalt 16384 8 8 32
    let passPoint ← privateKeyToPublicKey passFactor .compressed
    pure (b58checkEncode pr
      (integerToBytes magicNoLotSeq ++ ownerSalt ++ passPoint))

/-- `bip38_encrypt` (non-EC-multiplied mode).  Private keys travel as hex
strings in the source; hex transport is the identity here, so the hex
slice `[0:32]` becomes the byte slice `[0:16]` and `[32:64]` becomes
`[16:32]`. -/
def bip38Encrypt (pr : Primitives) (w pass : Bytes) (net : Network) :
    Except Err Bytes := do
  let dec ← decodeWif w
  let privateKey := dec.1
  let (flagB, pkt) :=
    match dec.2.1 with
    | WifType.wif => (integerToBytes 0xc0, PubKeyType.uncompressed)
    | WifType.wifCompressed => (integerToBytes 0xe0, PubKeyType.compressed)
  let publicKey ← privateKeyToPublicKey privateKey pkt
  let address := publicKeyToAddresses pr publicKey net
  let addressHash := getChecksum pr address
  let key := pr.scrypt (pr.nfc pass) addressHash 16384 8 8 64
  let dh1 := key.take 32
  let dh2 := slice 32 64 key
  let eh1 ← aesEncryptBlock pr dh2 (integerToBytes
    (bytesToInteger (privateKey.take 16) ^^^ bytesToInteger (dh1.take 16)))
  let eh2 ← aesEncryptBlock pr dh2 (integerToBytes
    (bytesToInteger (slice 16 32 privateKey) ^^^ bytesToInteger (slice 16 32 dh1)))
  let payload := integerToBytes 0x0142 ++ flagB ++ addressHash ++ eh1 ++ eh2
  pure (b58encode (payload ++ getChecksum pr payload))

/-- Return value of `create_new_encrypted_wif` (a Python dict). -/
structure NewEncryptedWif where
  encryptedWif : Bytes
  confirmationCode : Bytes
  publicKey : Bytes
  seed : Bytes
  publicKeyType : PubKeyType
  address : Bytes
  deriving DecidableEq, Repr

/-- `create_new_encrypted_wif`.  The `seed` argument is explicit; the
module-level default (`os.urandom(24)` evaluated once at import) is in
`ModuleDefaults`. -/
def createNewEncryptedWif (pr : Primitives) (ip : Bytes) (pkt : PubKeyType)
    (seed : Bytes) (net : Network) : Except Err NewEncryptedWif := do
  let seedB := seed
  let interDecode ← b58checkDecode pr ip
  if interDecode.length ≠ 49 then throw Err.invalidLength
  let magic := interDecode.take 8
  let ownerEntropy := slice 8 16 interDecode
  let passPoint := interDecode.drop 16
  let flagB ←
    if magic = integerToBytes magicLotSeq then
      pure (match pkt with
        | PubKeyType.uncompressed => integerToBytes 0x04
        | PubKeyType.compressed => integerToBytes 0x24)
    else if magic = integerToBytes magicNoLotSeq then
      pure (match pkt with
        | PubKeyType.uncompressed => integerToBytes 0x00
        | PubKeyType.compressed => integerToBytes 0x20)
    else throw Err.invalidMagic
  let factorB := doubleSha256 pr seedB
  if ¬(0 < bytesToInteger factorB ∧ bytesToInteger factorB < secpN) then
    throw Err.invalidScalar
  let publicKey ← multiplyPublicKey passPoint factorB pkt
  let address := publicKeyToAddresses pr publicKey net
  let addressHash := getChecksum pr address
  let salt := addressHash ++ ownerEntropy
  let scryptHash := pr.scrypt passPoint salt 1024 1 1 64
  let dh1 := scryptHash.take 16
  let dh2 := slice 16 32 scryptHash
  let key := scryptHash.drop 32
  let eh1 ← aesEncryptBlock pr key (integerToBytes
    (bytesToInteger (seedB.take 16) ^^^ bytesToInteger dh1))
  let eh2 ← aesEncryptBlock pr key (integerToBytes
    (bytesToInteger (eh1.drop 8 ++ seedB.drop 16) ^^^ bytesToInteger dh2))
  let encryptedWif := b58checkEncode pr
    (integerToBytes 0x0143 ++ flagB ++ addressHash ++ ownerEntropy ++
      eh1.take 8 ++ eh2)
  let pointB ← privateKeyToPublicKey factorB .compressed
  let pointBFirst := integerToBytes
    ((bytesToInteger (scryptHash.drop 63) &&& 1) ^^^ bytesToInteger (pointB.take 1))
  let pbh1 ← aesEncryptBlock pr key (integerToBytes
    (bytesToInteger (slice 1 17 pointB) ^^^ bytesToInteger dh1))
  let pbh2 ← aesEncryptBlock pr key (integerToBytes
    (bytesToInteger (pointB.drop 17) ^^^ bytesToInteger dh2))
  let encryptedPointB := pointBFirst ++ pbh1 ++ pbh2
  let confirmationCode := b58checkEncode pr
    (integerToBytes confCodeMarker ++ flagB ++ addressHash ++ ownerEntropy ++
      encryptedPointB)
  pure { encryptedWif := encryptedWif
         confirmationCode := confirmationCode
         publicKey := publicKey
         seed := seedB
         publicKeyType := pkt
         address := address }

/-- Detailed return value of `bip38_decrypt` (the `detail=True` dict). -/
structure DecryptDetail where
  wif : Bytes
  privateKey : Bytes
  wifType : WifType
  publicKey : Bytes
  publicKeyType : PubKeyType
  seed : Option Bytes
  address : Bytes
  lot : Option Nat
  seqNum : Option Nat
  deriving DecidableEq, Repr

/-- Return value of `bip38_decrypt` (`str` or dict, by the `detail` flag). -/
inductive DecryptResult where
  | plain (wif : Bytes)
  | detailed (d : DecryptDetail)
  deriving DecidableEq, Repr

/-- Body of `bip38_decrypt` on the already-sliced 43-byte envelope; every
byte-slice the source takes from the envelope is a parameter, which makes
it evident that only those slices matter. -/
def bip38DecryptCore (pr : Primitives)
    (pfx2 flagB addressHash eh1 eh2 ownerEntropy ehh1 ehEC : Bytes)
    (pass : Bytes) (net : Network) (detail : Bool) :
    Except Err DecryptResult := do
  if pfx2 = integerToBytes 0x0142 then
    let tf ←
      if flagB = integerToBytes 0xc0 then
        pure (WifType.wif, PubKeyType.uncompressed)
      else if flagB = integerToBytes 0xe0 then
        pure (WifType.wifCompressed, PubKeyType.compressed)
      else throw Err.invalidFlag
    let wifType := tf.1
    let pkt := tf.2
    let key := pr.scrypt (pr.nfc pass) addressHash 16384 8 8 64
    let dh1 := key.take 32
    let dh2 := slice 32 64 key
    let d2 ← aesDecryptBlock pr dh2 eh2
    let d1 ← aesDecryptBlock pr dh2 eh1
    let privateKey := integerToBytes
      (bytesToInteger (d1 ++ d2) ^^^ bytesToInteger dh1)
    if bytesToInteger privateKey = 0 ∨ bytesToInteger privateKey ≥ secpN then
      throw Err.invalidScalar
    let publicKey ← privateKeyToPublicKey privateKey pkt
    let address := publicKeyToAddresses pr publicKey net
    if getChecksum pr address ≠ addressHash then
      throw Err.incorrectPassphrase
    let wif ← privateKeyToWif pr privateKey wifType net
    if detail then
      pure (.detailed
        { wif := wif, privateKey := privateKey, wifType := wifType
          publicKey := publicKey, publicKeyType := pkt, seed := none
          address := address, lot := none, seqNum := none })
    else
      pure (.plain wif)
  else if pfx2 = integerToBytes 0x0143 then
    let saltLS :=
      if bytesToInteger flagB ∈ flagsLotSeq then
        (ownerEntropy.take 4, some (ownerEntropy.drop 4))
      else (ownerEntropy, (none : Option Bytes))
    let ownerSalt := saltLS.1
    let lotSeq := saltLS.2
    let passFactor0 := pr.scrypt (pr.nfc pass) ownerSalt 16384 8 8 32
    let passFactor :=
      match lotSeq with
      | some _ => doubleSha256 pr (passFactor0 ++ ownerEntropy)
      | none => passFactor0
    if bytesToInteger passFactor = 0 ∨ bytesToInteger passFactor ≥ secpN then
      throw Err.invalidScalar
    let prePublicKey ← privateKeyToPublicKey passFactor .compressed
    let salt := addressHash ++ ownerEntropy
    let encryptedSeedB := pr.scrypt prePublicKey salt 1024 1 1 64
    let key := encryptedSeedB.drop 32
    let dec2 ← aesDecryptBlock pr key ehEC
    let t2 := integerToBytes
      (bytesToInteger dec2 ^^^ bytesToInteger (slice 16 32 encryptedSeedB))
    let ehh2 := t2.take 8
    let ehFull := ehh1 ++ ehh2
    let dec1 ← aesDecryptBlock pr key ehFull
    let seedB := integerToBytes
      (bytesToInteger dec1 ^^^ bytesToInteger (encryptedSeedB.take 16)) ++
      t2.drop 8
    let factorB := doubleSha256 pr seedB
    if bytesToInteger factorB = 0 ∨ bytesToInteger factorB ≥ secpN then
      throw Err.invalidScalar
    let privateKey := multiplyPrivateKey passFactor factorB
    let publicKeyU ← privateKeyToPublicKey privateKey .uncompressed
    let pktw :=
      if bytesToInteger flagB ∈ flagsCompression then
        (compressPublicKey publicKeyU, PubKeyType.compressed, WifType.wifCompressed)
      else (publicKeyU, PubKeyType.uncompressed, WifType.wif)
    let publicKey := pktw.1
    let pkt := pktw.2.1
    let wifType := pktw.2.2
    let address := publicKeyToAddresses pr publicKey net
    if getChecksum pr address = addressHash then
      let wif ← privateKeyToWif pr privateKey wifType net
      if detail then
        let ls :=
          match lotSeq with
          | some lsB =>
            (some ((bytesToInteger lsB - bytesToInteger lsB % 4096) / 4096),
             some (bytesToInteger lsB % 4096))
          | none => ((none : Option Nat), (none : Option Nat))
        pure (.detailed
          { wif := wif, privateKey := privateKey, wifType := wifType
            publicKey := publicKey, publicKeyType := pkt, seed := some seedB
            address := address, lot := ls.1, seqNum := ls.2 })
      else
        pure (.plain wif)
    else throw Err.incorrectPassphrase
  else throw Err.invalidPrefixByte

/-- Slicing layer of `bip38_decrypt`: the envelope slices taken by the
source (`[:2]`, `[2:3]`, `[3:7]`, `[7:23]`, `[23:39]`, `[7:15]`,
`[15:23]`, `[23:-4]`). -/
def bip38DecryptBody (pr : Primitives) (raw pass : Bytes) (net : Network)
    (detail : Bool) : Except Err DecryptResult :=
  bip38DecryptCore pr (raw.take 2) (slice 2 3 raw) (slice 3 7 raw)
    (slice 7 23 raw) (slice 23 39 raw) (slice 7 15 raw) (slice 15 23 raw)
    ((raw.take (raw.length - 4)).drop 23) pass net detail

/-- `bip38_decrypt`: raw Base58 decode (no checksum verification), length
check, then the prefix-dispatched body. -/
def bip38Decrypt (pr : Primitives) (encryptedWif pass : Bytes)
    (net : Network) (detail : Bool) : Except Err DecryptResult := do
  let raw ← liftOption (b58decode encryptedWif) Err.invalidEncoding
  if raw.length ≠ 43 then throw Err.invalidLength
  bip38DecryptBody pr raw pass net detail

/-- The module-level default arguments: `os.urandom(8)` and
`os.urandom(24)` are evaluated once, when `bip38.py` is imported, and the
resulting byte strings are shared by every later call that omits the
argument. -/
structure ModuleDefaults where
  ownerSaltDefault : Bytes
  seedDefault : Bytes

/-- `intermediate_code` called without `owner_salt`. -/
def intermediateCodeDefault (md : ModuleDefaults) (pr : Primitives)
    (pass : Bytes) (lot seqn : Option Nat) : Except Err Bytes :=
  intermediateCode pr pass lot seqn md.ownerSaltDefault

/-- `create_new_encrypted_wif` called without `seed`. -/
def createNewEncryptedWifDefault (md : ModuleDefaults) (pr : Primitives)
    (ip : Bytes) (pkt : PubKeyType) (net : Network) :
    Except Err NewEncryptedWif :=
  createNewEncryptedWif pr ip pkt md.seedDefault net

/-! ### Concrete primitive instances used by witnesses

These satisfy `GoodPrims` (correct lengths, byte-valued outputs) and are
chosen so that concrete runs stay kernel-evaluable: the hash constants make
derived scalars small, and AES is the identity on blocks. -/

def toyPrims : Primitives :=
  { sha256 := fun _ => List.replicate 31 0 ++ [3]
    ripemd160 := fun _ => List.replicate 19 0 ++ [7]
    scrypt := fun _ _ _ _ _ dk =>
      if dk = 0 then [] else List.replicate (dk - 1) 0 ++ [3]
    aesEncrypt := fun _ b => b
    aesDecrypt := fun _ b => b
    nfc := fun s => s }

def toyPrimsOnes : Primitives :=
  { sha256 := fun _ => List.replicate 31 0 ++ [3]
    ripemd160 := fun _ => List.replicate 19 0 ++ [7]
    scrypt := fun _ _ _ _ _ dk => List.replicate dk 1
    aesEncrypt := fun _ b => b
    aesDecrypt := fun _ b => b
    nfc := fun s => s }

theorem replicate_valid (n c bound : Nat) (h : c < bound) :
    ∀ x ∈ List.replicate n c, x < bound := by
  intro x hx
  rw [List.eq_of_mem_replicate hx]
  exact h

theorem toyPrims_good : GoodPrims toyPrims := by
  constructor
  · intro bs; rfl
  · intro bs x hx
    rcases List.mem_append.mp hx with hx | hx
    · have := List.eq_of_mem_replicate hx; omega
    · simp at hx; omega
  · intro bs; rfl
  · intro bs x hx
    rcases List.mem_append.mp hx with hx | hx
    · have := List.eq_of_mem_replicate hx; omega
    · simp at hx; omega
  · intro pw salt n r p dk
    by_cases h : dk = 0
    · simp [toyPrims, h]
    · simp [toyPrims, h]
      omega
  · intro pw salt n r p dk x hx
    by_cases h : dk = 0
    · simp [toyPrims, h] at hx
    · simp [toyPrims, h] at hx
      rcases hx with hx | hx
      · omega
      · omega
  · intro k b h; exact h
  · intro k b _ h; exact h

theorem toyPrimsOnes_good : GoodPrims toyPrimsOnes := by
  constructor
  · intro bs; rfl
  · intro bs x hx
    rcases List.mem_append.mp hx with hx | hx
    · have := List.eq_of_mem_replicate hx; omega
    · simp at hx; omega
  · intro bs; rfl
  · intro bs x hx
    rcases List.mem_append.mp hx with hx | hx
    · have := List.eq_of_mem_replicate hx; omega
    · simp at hx; omega
  · intro pw salt n r p dk; simp [toyPrimsOnes]
  · intro pw salt n r p dk x hx
    have := List.eq_of_mem_replicate hx; omega
  · intro k b h; exact h
  · intro k b _ h; exact h

/-! ### Generic helper lemmas -/

theorem validBytes_nil : ValidBytes [] := by intro x hx; cases hx

theorem validBytes_append {a b : Bytes} (ha : ValidBytes a)
    (hb : ValidBytes b) : ValidBytes (a ++ b) := by
  intro x hx
  rcases List.mem_append.mp hx with h | h
  · exact ha x h
  · exact hb x h

theorem validBytes_cons {a : Bytes} (x : Nat) (hx : x < 256)
    (ha : ValidBytes a) : ValidBytes (x :: a) := by
  intro y hy
  rcases List.mem_cons.mp hy with h | h
  · omega
  · exact ha y h

theorem validBytes_take (n : Nat) {a : Bytes} (ha : ValidBytes a) :
    ValidBytes (a.take n) :=
  fun x hx => ha x (List.mem_of_mem_take hx)

theorem validBytes_drop (n : Nat) {a : Bytes} (ha : ValidBytes a) :
    ValidBytes (a.drop n) :=
  fun x hx => ha x (List.mem_of_mem_drop hx)

theorem validBytes_slice (a b : Nat) {l : Bytes} (h : ValidBytes l) :
    ValidBytes (slice a b l) :=
  validBytes_drop a (validBytes_take b h)

theorem validBytes_i2b (n : Nat) : ValidBytes (integerToBytes n) :=
  integerToBytes_valid n

theorem take_append_len {l₁ : Bytes} (l₂ : Bytes) (n : Nat)
    (h : l₁.length = n) : (l₁ ++ l₂).take n = l₁ := by
  subst h
  exact List.take_left l₁ l₂

theorem drop_append_len {l₁ : Bytes} (l₂ : Bytes) (n : Nat)
    (h : l₁.length = n) : (l₁ ++ l₂).drop n = l₂ := by
  subst h
  exact List.drop_left l₁ l₂

theorem getChecksum_len (pr : Primitives) (hpr : GoodPrims pr) (x : Bytes) :
    (getChecksum pr x).length = 4 := by
  rw [getChecksum, List.length_take, doubleSha256, hpr.sha_len]
  decide

theorem getChecksum_valid (pr : Primitives) (hpr : GoodPrims pr) (x : Bytes) :
    ValidBytes (getChecksum pr x) :=
  validBytes_take 4 (hpr.sha_valid _)

/-! ### Claim C6: WIF round trip -/

deriving instance DecidableEq for Except

theorem decodeWifTail_split (v : Nat) (inner chk : Bytes) (net : Network)
    (hchk : chk.length = 4) :
    decodeWifTail ([v] ++ (inner ++ chk)) net =
      (if inner.length = 33 then
        .ok (inner.take 32, WifType.wifCompressed, chk, net)
      else if inner.length = 32 then
        .ok (inner, WifType.wif, chk, net)
      else .error Err.invalidLength) := by
  simp only [decodeWifTail]
  have hdrop : ([v] ++ (inner ++ chk)).drop 1 = inner ++ chk :=
    drop_append_len _ 1 rfl
  rw [hdrop]
  have hl : (inner ++ chk).length - 4 = inner.length := by
    rw [List.length_append, hchk]
    omega
  rw [hl, take_append_len _ _ rfl, drop_append_len _ _ rfl]

theorem decodeWifRaw_version (v : Nat) (rest : Bytes) (net : Network)
    (hv : v = wifVersionByte net) :
    decodeWifRaw ([v] ++ rest) = decodeWifTail ([v] ++ rest) net := by
  have htake : ([v] ++ rest).take 1 = [v] := take_append_len _ 1 rfl
  rw [decodeWifRaw, htake]
  cases net with
  | mainnet => rw [if_pos (by rw [hv])]
  | testnet =>
    rw [if_neg (by rw [hv]; decide), if_pos (by rw [hv])]

/-- On a 32-byte private key, `private_key_to_wif` succeeds and `decode_wif`
recovers the key bytes, the WIF type and the network. -/
theorem decodeWif_encode (pr : Primitives) (hpr : GoodPrims pr) (sk : Bytes)
    (hlen : sk.length = 32) (hvalid : ValidBytes sk) (t : WifType)
    (net : Network) :
    ∀ w, privateKeyToWif pr sk t net = .ok w →
      ∃ chk, decodeWif w = .ok (sk, t, chk, net) := by
  intro w hw
  have hvb : wifVersionByte net < 256 := by cases net <;> decide
  rw [privateKeyToWif, encodeWif, if_neg (by omega)] at hw
  cases t with
  | wif =>
    dsimp only at hw
    injection hw with hw
    subst hw
    have hvalid1 : ValidBytes (([wifVersionByte net] ++ sk) ++
        getChecksum pr ([wifVersionByte net] ++ sk)) :=
      validBytes_append
        (validBytes_append (validBytes_cons _ hvb validBytes_nil) hvalid)
        (getChecksum_valid pr hpr _)
    have hassoc : ([wifVersionByte net] ++ sk) ++
        getChecksum pr ([wifVersionByte net] ++ sk) =
        [wifVersionByte net] ++
          (sk ++ getChecksum pr ([wifVersionByte net] ++ sk)) := by
      rw [List.append_assoc]
    refine ⟨getChecksum pr ([wifVersionByte net] ++ sk), ?_⟩
    have hdec : decodeWif (b58encode (([wifVersionByte net] ++ sk) ++
        getChecksum pr ([wifVersionByte net] ++ sk))) =
        decodeWifRaw (([wifVersionByte net] ++ sk) ++
          getChecksum pr ([wifVersionByte net] ++ sk)) := by
      unfold decodeWif
      rw [b58decode_encode _ hvalid1]
    rw [hdec, hassoc, decodeWifRaw_version _ _ net rfl,
      decodeWifTail_split _ _ _ _ (getChecksum_len pr hpr _), if_neg (by omega),
      if_pos hlen]
  | wifCompressed =>
    dsimp only at hw
    injection hw with hw
    subst hw
    have hvalid2 : ValidBytes (([wifVersionByte net] ++ sk ++ [1]) ++
        getChecksum pr ([wifVersionByte net] ++ sk ++ [1])) :=
      validBytes_append
        (validBytes_append
          (validBytes_append (validBytes_cons _ hvb validBytes_nil) hvalid)
          (validBytes_cons 1 (by omega) validBytes_nil))
        (getChecksum_valid pr hpr _)
    have hassoc : ([wifVersionByte net] ++ sk ++ [1]) ++
        getChecksum pr ([wifVersionByte net] ++ sk ++ [1]) =
        [wifVersionByte net] ++
          ((sk ++ [1]) ++ getChecksum pr ([wifVersionByte net] ++ sk ++ [1])) := by
      simp [List.append_assoc]
    have hlen33 : (sk ++ [1]).length = 33 := by
      rw [List.length_append, hlen]
      rfl
    refine ⟨getChecksum pr ([wifVersionByte net] ++ sk ++ [1]), ?_⟩
    have hdec : decodeWif (b58encode (([wifVersionByte net] ++ sk ++ [1]) ++
        getChecksum pr ([wifVersionByte net] ++ sk ++ [1]))) =
        decodeWifRaw (([wifVersionByte net] ++ sk ++ [1]) ++
          getChecksum pr ([wifVersionByte net] ++ sk ++ [1])) := by
      unfold decodeWif
      rw [b58decode_encode _ hvalid2]
    rw [hdec, hassoc, decodeWifRaw_version _ _ net rfl,
      decodeWifTail_split _ _ _ _ (getChecksum_len pr hpr _), if_pos hlen33,
      take_append_len _ 32 hlen]

/-- C6: for every 32-byte private key `d` with `0 < d < N`, every network
`n` and WIF type `t`, `wif_to_private_key (private_key_to_wif d t n)`
returns `d`, and `get_wif_type` / `get_wif_network` on the same WIF return
`t` and `n`. -/
theorem c6_wif_round_trip (pr : Primitives) (hpr : GoodPrims pr) (sk : Bytes)
    (hlen : sk.length = 32) (hvalid : ValidBytes sk)
    (hpos : 0 < bytesToInteger sk) (hlt : bytesToInteger sk < secpN)
    (t : WifType) (net : Network) :
    ∃ w, privateKeyToWif pr sk t net = .ok w ∧
      wifToPrivateKey w = .ok sk ∧
      getWifType w = .ok t ∧
      getWifNetwork w = .ok net := by
  have hex : ∃ w, privateKeyToWif pr sk t net = .ok w := by
    rw [privateKeyToWif, encodeWif, if_neg (by omega)]
    cases t
    · exact ⟨_, rfl⟩
    · exact ⟨_, rfl⟩
  obtain ⟨w, hw⟩ := hex
  obtain ⟨chk, hdec⟩ := decodeWif_encode pr hpr sk hlen hvalid t net w hw
  refine ⟨w, hw, ?_, ?_, ?_⟩
  · rw [wifToPrivateKey, hdec]; rfl
  · rw [getWifType, hdec]; rfl
  · rw [getWifNetwork, hdec]; rfl

def skC6 : Bytes := List.replicate 31 0 ++ [3]

/-- Witness for C6 at a concrete key, type and network. -/
theorem c6_wif_round_trip_witness :
    ∃ w, privateKeyToWif toyPrims skC6 WifType.wifCompressed Network.testnet = .ok w ∧
      wifToPrivateKey w = .ok skC6 ∧
      getWifType w = .ok WifType.wifCompressed ∧
      getWifNetwork w = .ok Network.testnet :=
  c6_wif_round_trip toyPrims toyPrims_good skC6 (by decide) (by decide)
    (by decide) (by decide) WifType.wifCompressed Network.testnet

/-! ### Claim C7: decode_wif failure modes -/

theorem decodeWifTail_ok_iff (raw : Bytes) (net : Network) :
    (∃ r, decodeWifTail raw net = .ok r) ↔
      (raw.length = 38 ∨ raw.length = 37) := by
  simp only [decodeWifTail]
  have hlen : ((raw.drop 1).take ((raw.drop 1).length - 4)).length =
      raw.length - 1 - 4 := by
    rw [List.length_take, List.length_drop]
    omega
  rw [hlen]
  constructor
  · rintro ⟨r, hr⟩
    by_cases h1 : raw.length - 1 - 4 = 33
    · left; omega
    · rw [if_neg h1] at hr
      by_cases h2 : raw.length - 1 - 4 = 32
      · right; omega
      · rw [if_neg h2] at hr
        exact absurd hr (fun h => Except.noConfusion h)
  · intro h
    rcases h with h | h
    · rw [if_pos (by omega)]
      exact ⟨_, rfl⟩
    · rw [if_neg (by omega), if_pos (by omega)]
      exact ⟨_, rfl⟩

/-- C7 (amended): `decode_wif` fails exactly for an unknown version byte or
a wrong inner length (the envelope must be 37 or 38 bytes, i.e. 32 or 33
bytes between version byte and checksum); the 4-byte checksum is extracted
but never verified. -/
theorem c7_decode_wif_failures (raw : Bytes) (hvalid : ValidBytes raw) :
    (∃ r, decodeWif (b58encode raw) = .ok r) ↔
      ((raw.take 1 = [0x80] ∨ raw.take 1 = [0xef]) ∧
        (raw.length = 37 ∨ raw.length = 38)) := by
  have hdec : decodeWif (b58encode raw) = decodeWifRaw raw := by
    unfold decodeWif
    rw [b58decode_encode _ hvalid]
  rw [hdec, decodeWifRaw]
  by_cases hm : raw.take 1 = [wifVersionByte Network.mainnet]
  · rw [if_pos hm, decodeWifTail_ok_iff]
    constructor
    · intro h
      exact ⟨Or.inl hm, by omega⟩
    · intro ⟨_, h⟩
      omega
  · rw [if_neg hm]
    by_cases ht : raw.take 1 = [wifVersionByte Network.testnet]
    · rw [if_pos ht, decodeWifTail_ok_iff]
      constructor
      · intro h
        exact ⟨Or.inr ht, by omega⟩
      · intro ⟨_, h⟩
        omega
    · rw [if_neg ht]
      constructor
      · rintro ⟨r, hr⟩
        exact absurd hr (fun h => Except.noConfusion h)
      · intro ⟨hv, _⟩
        rcases hv with hv | hv
        · exact absurd hv hm
        · exact absurd hv ht

def rawC7 : Bytes := [0x80] ++ List.replicate 32 5 ++ [9, 9, 9, 9]

/-- C7 counterexample: a WIF-like token whose trailing 4 bytes differ from
the checksum of the preceding payload is still accepted by `decode_wif`
(with the bogus checksum returned verbatim), so decoding does not fail on a
bad checksum. -/
theorem c7_counterexample :
    getChecksum toyPrims (rawC7.take 33) ≠ rawC7.drop 33 ∧
    decodeWif (b58encode rawC7) =
      .ok (List.replicate 32 5, WifType.wif, [9, 9, 9, 9], Network.mainnet) := by
  constructor
  · decide
  · decide

/-! ### Claim C9: the Base58Check checksum and bip38_decrypt -/

theorem bip38DecryptBody_congr (pr : Primitives) (raw1 raw2 pass : Bytes)
    (net : Network) (detail : Bool)
    (hl1 : raw1.length = 43) (hl2 : raw2.length = 43)
    (hpre : raw1.take 39 = raw2.take 39) :
    bip38DecryptBody pr raw1 pass net detail =
      bip38DecryptBody pr raw2 pass net detail := by
  have htk : ∀ b : Nat, b ≤ 39 → raw1.take b = raw2.take b := by
    intro b hb
    have e1 : (raw1.take 39).take b = raw1.take b := by
      rw [List.take_take]
      congr 1
      omega
    have e2 : (raw2.take 39).take b = raw2.take b := by
      rw [List.take_take]
      congr 1
      omega
    rw [← e1, ← e2, hpre]
  have hsl : ∀ a b : Nat, b ≤ 39 → slice a b raw1 = slice a b raw2 := by
    intro a b hb
    rw [slice, slice, htk b hb]
  rw [bip38DecryptBody, bip38DecryptBody, hl1, hl2]
  norm_num
  rw [htk 2 (by omega), hsl 2 3 (by omega), hsl 3 7 (by omega),
    hsl 7 23 (by omega), hsl 23 39 (by omega), hsl 7 15 (by omega),
    hsl 15 23 (by omega), hpre]

/-- C9 (amended): `bip38_decrypt` never verifies the Base58Check checksum;
its result depends only on the first 39 decoded bytes, so two 43-byte
envelopes that differ only in the trailing 4 checksum bytes decrypt
identically. -/
theorem c9_decrypt_ignores_checksum (pr : Primitives)
    (raw1 raw2 pass : Bytes) (net : Network) (detail : Bool)
    (h1 : ValidBytes raw1) (h2 : ValidBytes raw2)
    (hl1 : raw1.length = 43) (hl2 : raw2.length = 43)
    (hpre : raw1.take 39 = raw2.take 39) :
    bip38Decrypt pr (b58encode raw1) pass net detail =
      bip38Decrypt pr (b58encode raw2) pass net detail := by
  rw [bip38Decrypt, bip38Decrypt, b58decode_encode _ h1, b58decode_encode _ h2]
  simp only [liftOption, bind, Except.bind]
  rw [hl1, hl2]
  norm_num
  exact bip38DecryptBody_congr pr raw1 raw2 pass net detail hl1 hl2 hpre

def rawC9a : Bytes := [1, 0x42, 0xc0] ++ List.replicate 36 0 ++ [7, 7, 7, 8]
def rawC9b : Bytes := [1, 0x42, 0xc0] ++ List.replicate 36 0 ++ [7, 7, 7, 9]

/-- Witness for the amended C9 at two concrete envelopes differing only in
their trailing checksum bytes. -/
theorem c9_decrypt_ignores_checksum_witness :
    bip38Decrypt toyPrims (b58encode rawC9a) [] Network.mainnet false =
      bip38Decrypt toyPrims (b58encode rawC9b) [] Network.mainnet false :=
  c9_decrypt_ignores_checksum toyPrims rawC9a rawC9b [] Network.mainnet false
    (by decide) (by decide) (by decide) (by decide) (by decide)

def rawC9 : Bytes := [1, 0x42, 0x99] ++ List.replicate 36 0 ++ [7, 7, 7, 7]

/-- C9 counterexample: an envelope whose trailing 4 bytes are not the
checksum of the preceding 39-byte payload is not rejected with
`InvalidEncoding`; decryption proceeds to flag dispatch and reports
`InvalidFlag` instead. -/
theorem c9_counterexample :
    getChecksum toyPrims (rawC9.take 39) ≠ rawC9.drop 39 ∧
    bip38Decrypt toyPrims (b58encode rawC9) [] Network.mainnet false =
      .error .invalidFlag ∧
    (Except.error Err.invalidFlag : Except Err DecryptResult) ≠
      .error .invalidEncoding := by
  refine ⟨by decide, by decide, by decide⟩

/-! ### Claim C4: flag discipline -/

theorem except_bind_ok {α β : Type} (x : Except Err α) (f : α → Except Err β)
    (b : β) :
    (x >>= f = Except.ok b) ↔ ∃ a, x = Except.ok a ∧ f a = Except.ok b := by
  cases x with
  | error e => simp [bind, Except.bind]
  | ok a => simp [bind, Except.bind]

theorem aesEncryptBlock_ok (pr : Primitives) (k b e : Bytes)
    (h : aesEncryptBlock pr k b = .ok e) :
    b.length = 16 ∧ e = pr.aesEncrypt k b := by
  rw [aesEncryptBlock] at h
  by_cases hb : b.length = 16
  · rw [if_pos hb] at h
    injection h with h
    exact ⟨hb, h.symm⟩
  · rw [if_neg hb] at h
    exact absurd h (fun hh => Except.noConfusion hh)

theorem b58decode_validBytes (s r : Bytes) (h : b58decode s = some r) :
    ValidBytes r := by
  rw [b58decode] at h
  cases hm : mapOption b58charIndex s with
  | none => rw [hm] at h; exact absurd h (by simp)
  | some ds =>
    rw [hm] at h
    simp only [Option.map_some'] at h
    injection h with h
    rw [← h]
    apply validBytes_append
    · intro x hx
      have := List.eq_of_mem_replicate hx
      omega
    · intro x hx
      exact natDigitsBE_lt 256 _ (by omega) x hx

/-- C4 part (i): a 43-byte envelope with the non-EC prefix and a flag byte
other than `0xC0` / `0xE0` is rejected with `InvalidFlag`, for every
primitive bundle — in particular the result does not depend on scrypt, so
no key derivation runs. -/
theorem c4_nonec_flag_reject (pr : Primitives) (tok raw pass : Bytes)
    (net : Network) (detail : Bool)
    (hdec : b58decode tok = some raw) (hlen : raw.length = 43)
    (hpfx : raw.take 2 = [1, 0x42])
    (hc0 : slice 2 3 raw ≠ [0xc0]) (he0 : slice 2 3 raw ≠ [0xe0]) :
    bip38Decrypt pr tok pass net detail = .error .invalidFlag := by
  rw [bip38Decrypt, hdec]
  simp only [liftOption, bind, Except.bind]
  rw [hlen]
  norm_num
  rw [bip38DecryptBody, bip38DecryptCore, hpfx]
  rw [if_pos (by decide)]
  rw [if_neg (fun h => hc0 (h.trans (by decide))),
    if_neg (fun h => he0 (h.trans (by decide)))]
  rfl

theorem i2b_0142 : integerToBytes 0x0142 = [1, 0x42] := by decide

theorem i2b_c0 : integerToBytes 0xc0 = [0xc0] := by decide

theorem i2b_e0 : integerToBytes 0xe0 = [0xe0] := by decide

/-- C4 part (ii): every envelope produced by `bip38_encrypt` decodes to a
payload whose first three bytes are the non-EC prefix and a legal flag
(`0xC0` or `0xE0`); no illegal flag is ever emitted. -/
theorem bip38Encrypt_flag (pr : Primitives) (hpr : GoodPrims pr)
    (w pass : Bytes) (net : Network) (tok : Bytes)
    (h : bip38Encrypt pr w pass net = .ok tok) :
    ∃ raw, b58decode tok = some raw ∧
      (raw.take 3 = [1, 0x42, 0xc0] ∨ raw.take 3 = [1, 0x42, 0xe0]) := by
  rw [bip38Encrypt, except_bind_ok] at h
  obtain ⟨dec, hdec, h⟩ := h
  obtain ⟨sk, wt, chk, net2⟩ := dec
  cases wt with
  | wif =>
    rw [except_bind_ok] at h
    obtain ⟨pub, hpub, h⟩ := h
    rw [except_bind_ok] at h
    obtain ⟨eh1, heh1, h⟩ := h
    rw [except_bind_ok] at h
    obtain ⟨eh2, heh2, h⟩ := h
    simp only [pure, Except.pure] at h
    injection h with h
    obtain ⟨hlen1, heq1⟩ := aesEncryptBlock_ok pr _ _ _ heh1
    obtain ⟨hlen2, heq2⟩ := aesEncryptBlock_ok pr _ _ _ heh2
    have hv1 : ValidBytes eh1 := by
      rw [heq1]
      exact hpr.aes_enc_valid _ _ hlen1 (validBytes_i2b _)
    have hv2 : ValidBytes eh2 := by
      rw [heq2]
      exact hpr.aes_enc_valid _ _ hlen2 (validBytes_i2b _)
    subst h
    refine ⟨_, b58decode_encode _ ?_, Or.inl ?_⟩
    · refine validBytes_append (validBytes_append (validBytes_append
        (validBytes_append (validBytes_append
          (validBytes_i2b _) (validBytes_i2b _))
          (getChecksum_valid pr hpr _)) hv1) hv2)
        (getChecksum_valid pr hpr _)
    · rw [i2b_0142, i2b_c0]
      rfl
  | wifCompressed =>
    rw [except_bind_ok] at h
    obtain ⟨pub, hpub, h⟩ := h
    rw [except_bind_ok] at h
    obtain ⟨eh1, heh1, h⟩ := h
    rw [except_bind_ok] at h
    obtain ⟨eh2, heh2, h⟩ := h
    simp only [pure, Except.pure] at h
    injection h with h
    obtain ⟨hlen1, heq1⟩ := aesEncryptBlock_ok pr _ _ _ heh1
    obtain ⟨hlen2, heq2⟩ := aesEncryptBlock_ok pr _ _ _ heh2
    have hv1 : ValidBytes eh1 := by
      rw [heq1]
      exact hpr.aes_enc_valid _ _ hlen1 (validBytes_i2b _)
    have hv2 : ValidBytes eh2 := by
      rw [heq2]
      exact hpr.aes_enc_valid _ _ hlen2 (validBytes_i2b _)
    subst h
    refine ⟨_, b58decode_encode _ ?_, Or.inr ?_⟩
    · refine validBytes_append (validBytes_append (validBytes_append
        (validBytes_append (validBytes_append
          (validBytes_i2b _) (validBytes_i2b _))
          (getChecksum_valid pr hpr _)) hv1) hv2)
        (getChecksum_valid pr hpr _)
    · rw [i2b_0142, i2b_e0]
      rfl

theorem liftOption_ok (o : Option Bytes) (e : Err) (r : Bytes)
    (h : liftOption o e = .ok r) : o = some r := by
  cases o with
  | none => exact absurd h (fun hh => Except.noConfusion hh)
  | some x =>
    simp only [liftOption] at h
    injection h with h
    rw [h]

theorem b58checkDecode_ok_valid (pr : Primitives) (s p : Bytes)
    (h : b58checkDecode pr s = .ok p) : ValidBytes p := by
  rw [b58checkDecode, except_bind_ok] at h
  obtain ⟨raw, hraw, h⟩ := h
  have hv : ValidBytes raw :=
    b58decode_validBytes s raw (liftOption_ok _ _ _ hraw)
  dsimp only at h
  split at h
  · simp only [pure, Except.pure] at h
    injection h with h
    rw [← h]
    exact validBytes_take _ hv
  · exact absurd h (fun hh => Except.noConfusion hh)

theorem ite_bind {α β : Type} (c : Prop) [Decidable c]
    (x y : Except Err α) (f : α → Except Err β) :
    (if c then (x >>= f) else (y >>= f)) = (if c then x else y) >>= f :=
  (apply_ite (· >>= f) c x y).symm

/-- Success shape of `create_new_encrypted_wif`: the seed is returned
verbatim, and the encrypted WIF is the Base58Check envelope of the EC
prefix, a flag drawn from the four legal EC flag encodings, and a 36-byte
tail. -/
theorem createNew_ok_shape (pr : Primitives) (hpr : GoodPrims pr)
    (ip : Bytes) (pkt : PubKeyType) (seed : Bytes) (net : Network)
    (r : NewEncryptedWif)
    (h : createNewEncryptedWif pr ip pkt seed net = .ok r) :
    r.seed = seed ∧
    ∃ flagB rest,
      (flagB = [0x04] ∨ flagB = [0x24] ∨ flagB = [] ∨ flagB = [0x20]) ∧
      ValidBytes rest ∧ rest.length = 36 ∧
      r.encryptedWif = b58checkEncode pr ((integerToBytes 0x0143 ++ flagB) ++ rest) := by
  unfold createNewEncryptedWif at h
  rw [except_bind_ok] at h
  obtain ⟨interDecode, hid, h⟩ := h
  have hidv : ValidBytes interDecode := b58checkDecode_ok_valid pr ip interDecode hid
  dsimp only at h
  rw [ite_bind, except_bind_ok] at h
  obtain ⟨u1, hu1, h⟩ := h
  have hlen49 : interDecode.length = 49 := by
    by_cases hc : interDecode.length ≠ 49
    · rw [if_pos hc] at hu1
      exact absurd hu1 (fun hh => Except.noConfusion hh)
    · omega
  rw [ite_bind, ite_bind, except_bind_ok] at h
  obtain ⟨flagB, hflag, h⟩ := h
  rw [ite_bind, except_bind_ok] at h
  obtain ⟨u2, hu2, h⟩ := h
  rw [except_bind_ok] at h
  obtain ⟨publicKey, hpub, h⟩ := h
  rw [except_bind_ok] at h
  obtain ⟨eh1, heh1, h⟩ := h
  rw [except_bind_ok] at h
  obtain ⟨eh2, heh2, h⟩ := h
  rw [except_bind_ok] at h
  obtain ⟨pointB, hpb, h⟩ := h
  rw [except_bind_ok] at h
  obtain ⟨pbh1, hpbh1, h⟩ := h
  rw [except_bind_ok] at h
  obtain ⟨pbh2, hpbh2, h⟩ := h
  simp only [pure, Except.pure] at h
  injection h with h
  subst h
  refine ⟨rfl, ?_⟩
  obtain ⟨hl1, he1⟩ := aesEncryptBlock_ok pr _ _ _ heh1
  obtain ⟨hl2, he2⟩ := aesEncryptBlock_ok pr _ _ _ heh2
  have hv1 : ValidBytes eh1 := by
    rw [he1]
    exact hpr.aes_enc_valid _ _ hl1 (validBytes_i2b _)
  have hv2 : ValidBytes eh2 := by
    rw [he2]
    exact hpr.aes_enc_valid _ _ hl2 (validBytes_i2b _)
  have hlen1 : eh1.length = 16 := by
    rw [he1]
    exact hpr.aes_enc_len _ _ hl1
  have hlen2 : eh2.length = 16 := by
    rw [he2]
    exact hpr.aes_enc_len _ _ hl2
  refine ⟨flagB, getChecksum pr (publicKeyToAddresses pr publicKey net) ++
    slice 8 16 interDecode ++ eh1.take 8 ++ eh2, ?_, ?_, ?_, ?_⟩
  · split at hflag
    · cases pkt with
      | uncompressed =>
        simp only [pure, Except.pure] at hflag
        injection hflag with hflag
        left
        rw [← hflag]
        decide
      | compressed =>
        simp only [pure, Except.pure] at hflag
        injection hflag with hflag
        right; left
        rw [← hflag]
        decide
    · split at hflag
      · cases pkt with
        | uncompressed =>
          simp only [pure, Except.pure] at hflag
          injection hflag with hflag
          right; right; left
          rw [← hflag]
          decide
        | compressed =>
          simp only [pure, Except.pure] at hflag
          injection hflag with hflag
          right; right; right
          rw [← hflag]
          decide
      · exact absurd hflag (fun hh => Except.noConfusion hh)
  · exact validBytes_append (validBytes_append (validBytes_append
      (getChecksum_valid pr hpr _) (validBytes_slice _ _ hidv))
      (validBytes_take _ hv1)) hv2
  · have hsl : (slice 8 16 interDecode).length = 8 := by
      rw [slice, List.length_drop, List.length_take]
      omega
    rw [List.length_append, List.length_append, List.length_append,
      getChecksum_len pr hpr, hsl, List.length_take, hlen1, hlen2]
    omega
  · simp only [List.append_assoc]

theorem i2b_0143 : integerToBytes 0x0143 = [1, 0x43] := by decide

/-- C4 part (iii): a 43-byte envelope produced by
`create_new_encrypted_wif` carries one of the legal EC flags
`0x04` / `0x24` / `0x20`. -/
theorem createNew_flag_43 (pr : Primitives) (hpr : GoodPrims pr)
    (ip : Bytes) (pkt : PubKeyType) (seed : Bytes) (net : Network)
    (r : NewEncryptedWif) (raw : Bytes)
    (h : createNewEncryptedWif pr ip pkt seed net = .ok r)
    (hdec : b58decode r.encryptedWif = some raw) (hlen : raw.length = 43) :
    raw.take 3 = [1, 0x43, 0x04] ∨ raw.take 3 = [1, 0x43, 0x24] ∨
      raw.take 3 = [1, 0x43, 0x20] := by
  obtain ⟨-, flagB, rest, hflag, hrv, hrl, henc⟩ := createNew_ok_shape pr hpr ip pkt seed net r h
  have hfv : ValidBytes flagB := by
    rcases hflag with hf | hf | hf | hf <;> rw [hf] <;> decide
  have hpv : ValidBytes (((integerToBytes 0x0143 ++ flagB) ++ rest) ++
      getChecksum pr ((integerToBytes 0x0143 ++ flagB) ++ rest)) :=
    validBytes_append
      (validBytes_append (validBytes_append (validBytes_i2b _) hfv) hrv)
      (getChecksum_valid pr hpr _)
  rw [henc, b58checkEncode, b58decode_encode _ hpv] at hdec
  injection hdec with hdec
  subst hdec
  have hflen : flagB.length = 1 := by
    rw [List.length_append, List.length_append, List.length_append,
      getChecksum_len pr hpr, hrl, i2b_0143] at hlen
    simp at hlen
    omega
  rcases hflag with hf | hf | hf | hf
  · subst hf
    left
    rw [i2b_0143]
    rfl
  · subst hf
    right; left
    rw [i2b_0143]
    rfl
  · rw [hf] at hflen
    exact absurd hflen (by decide)
  · subst hf
    right; right
    rw [i2b_0143]
    rfl

/-- C4 (amended): (i) 43-byte non-EC envelopes (prefix `0x0142`) with a
flag outside `{0xC0, 0xE0}` — in particular every illegal flag — are
rejected with `InvalidFlag` for any primitive bundle, so no scrypt runs;
(ii) envelopes produced by `bip38_encrypt` carry flag `0xC0` or `0xE0`;
(iii) 43-byte envelopes produced by `create_new_encrypted_wif` carry flag
`0x04`, `0x24` or `0x20`; none of these flags is illegal.  EC-prefixed
(`0x0143`) envelopes, however, undergo no flag validation (see the
counterexample). -/
theorem c4_flag_discipline :
    (∀ (pr : Primitives) (tok raw pass : Bytes) (net : Network) (detail : Bool),
      b58decode tok = some raw → raw.length = 43 → raw.take 2 = [1, 0x42] →
      slice 2 3 raw ≠ [0xc0] → slice 2 3 raw ≠ [0xe0] →
      bip38Decrypt pr tok pass net detail = .error .invalidFlag) ∧
    (∀ (pr : Primitives), GoodPrims pr →
      ∀ (w pass : Bytes) (net : Network) (tok : Bytes),
      bip38Encrypt pr w pass net = .ok tok →
      ∃ raw, b58decode tok = some raw ∧
        (raw.take 3 = [1, 0x42, 0xc0] ∨ raw.take 3 = [1, 0x42, 0xe0])) ∧
    (∀ (pr : Primitives), GoodPrims pr →
      ∀ (ip : Bytes) (pkt : PubKeyType) (seed : Bytes) (net : Network)
        (r : NewEncryptedWif) (raw : Bytes),
      createNewEncryptedWif pr ip pkt seed net = .ok r →
      b58decode r.encryptedWif = some raw → raw.length = 43 →
      raw.take 3 = [1, 0x43, 0x04] ∨ raw.take 3 = [1, 0x43, 0x24] ∨
        raw.take 3 = [1, 0x43, 0x20]) := by
  refine ⟨?_, ?_, ?_⟩
  · intro pr tok raw pass net detail h1 h2 h3 h4 h5
    exact c4_nonec_flag_reject pr tok raw pass net detail h1 h2 h3 h4 h5
  · intro pr hpr w pass net tok h
    exact bip38Encrypt_flag pr hpr w pass net tok h
  · intro pr hpr ip pkt seed net r raw h hdec hlen
    exact createNew_flag_43 pr hpr ip pkt seed net r raw h hdec hlen

def skThree : Bytes := List.replicate 31 0 ++ [3]

def c4wif : Bytes :=
  match privateKeyToWif toyPrimsOnes skThree WifType.wif Network.mainnet with
  | .ok w => w
  | .error _ => []

def c4tok : Bytes :=
  match bip38Encrypt toyPrimsOnes c4wif [] Network.mainnet with
  | .ok t => t
  | .error _ => []

def c4rawNonEc : Bytes := [1, 0x42, 0xc4] ++ List.replicate 36 0 ++ [0, 0, 0, 0]

def icC4 : Bytes :=
  match intermediateCode toyPrims [120] none none [1, 2, 3, 4, 5, 6, 7, 8] with
  | .ok s => s
  | .error _ => []

def seedC4 : Bytes := 171 :: (List.replicate 7 0 ++ [205] ++ List.replicate 15 0)

def c4mint : NewEncryptedWif :=
  match createNewEncryptedWif toyPrims icC4 PubKeyType.compressed seedC4 Network.mainnet with
  | .ok r => r
  | .error _ => ⟨[], [], [], [], PubKeyType.compressed, []⟩

def c4mintRaw : Bytes := (b58decode c4mint.encryptedWif).getD []

set_option maxRecDepth 100000 in
/-- Witness for the amended C4 at concrete inputs: an illegal-flag non-EC
token, a concrete encryption, and a concrete minted EC envelope. -/
theorem c4_flag_discipline_witness :
    bip38Decrypt toyPrims (b58encode c4rawNonEc) [] Network.mainnet false =
      .error .invalidFlag ∧
    (∃ raw, b58decode c4tok = some raw ∧
      (raw.take 3 = [1, 0x42, 0xc0] ∨ raw.take 3 = [1, 0x42, 0xe0])) ∧
    (c4mintRaw.take 3 = [1, 0x43, 0x04] ∨ c4mintRaw.take 3 = [1, 0x43, 0x24] ∨
      c4mintRaw.take 3 = [1, 0x43, 0x20]) :=
  ⟨c4_flag_discipline.1 toyPrims (b58encode c4rawNonEc) c4rawNonEc []
      Network.mainnet false (by decide) (by decide) (by decide) (by decide)
      (by decide),
   c4_flag_discipline.2.1 toyPrimsOnes toyPrimsOnes_good c4wif [] Network.mainnet
      c4tok (by decide),
   c4_flag_discipline.2.2 toyPrims toyPrims_good icC4 PubKeyType.compressed
      seedC4 Network.mainnet c4mint c4mintRaw (by decide) (by decide) (by decide)⟩

def rawC4ec : Bytes := [1, 0x43, 0xc4] ++ List.replicate 40 0

set_option maxRecDepth 100000 in
/-- C4 counterexample: a 43-byte EC-prefixed (`0x0143`) envelope whose flag
byte `0xC4` is in the illegal set is not rejected with `InvalidFlag`:
decryption runs the scrypt/EC pipeline and fails later (here inside an AES
block operation), so the claimed uniform flag rejection is false. -/
theorem c4_counterexample :
    (0xc4 ∈ flagsIllegal) ∧
    rawC4ec.length = 43 ∧
    rawC4ec.take 2 = [1, 0x43] ∧
    slice 2 3 rawC4ec = [0xc4] ∧
    bip38Decrypt toyPrims (b58encode rawC4ec) [113] Network.mainnet false =
      .error .aesBlockLength ∧
    (Except.error Err.aesBlockLength : Except Err DecryptResult) ≠
      .error .invalidFlag :=
  ⟨by decide, by decide, by decide, by decide, by decide, by decide⟩

/-! ### Claim C8: public-key compression round trips -/

theorem powModLoop_lt (z : Nat) (hz : 0 < z) :
    ∀ fuel n x y, (y ≠ 0 ∨ n < z) → y ≤ fuel → powModLoop z fuel n x y < z := by
  intro fuel
  induction fuel with
  | zero =>
    intro n x y hd hy
    have : y = 0 := by omega
    subst this
    rcases hd with hd | hd
    · exact absurd rfl hd
    · exact hd
  | succ fuel ih =>
    intro n x y hd hy
    rw [powModLoop]
    by_cases hy0 : y = 0
    · rw [if_pos hy0]
      rcases hd with hd | hd
      · exact absurd hy0 hd
      · exact hd
    · rw [if_neg hy0]
      apply ih
      · by_cases hhalf : y / 2 = 0
        · right
          have hy1 : y = 1 := by omega
          rw [if_pos (by omega)]
          exact Nat.mod_lt _ hz
        · left
          exact hhalf
      · have : y / 2 < y := Nat.div_lt_self (by omega) (by omega)
        omega

theorem powMod_lt (x y z : Nat) (hz : 0 < z) (hy : y ≠ 0) :
    powMod x y z < z :=
  powModLoop_lt z hz (y + 1) 1 x y (Or.inl hy) (by omega)

theorem secpP_pos : 0 < secpP := by decide

theorem secpP_odd : secpP % 2 = 1 := by decide

theorem secpP_gt3 : 3 < secpP := by decide

theorem bytesToInteger_singleton (c : Nat) : bytesToInteger [c] = c := by
  simp [bytesToInteger, ofBaseBE]

theorem bytesToInteger_cons_zero (rest : Bytes) :
    bytesToInteger (0 :: rest) = bytesToInteger rest := by
  have := ofBaseBE_replicate_zero_append 256 1 rest
  simpa [bytesToInteger] using this

theorem head_ne_zero_of_big (xb : Bytes) (hlen : xb.length = 32)
    (hv : ValidBytes xb) (hx : 2 ^ 248 ≤ bytesToInteger xb) :
    xb.head? ≠ some 0 := by
  intro h
  cases xb with
  | nil => simp at h
  | cons c rest =>
    simp at h
    subst h
    have hrl : rest.length = 31 := by simpa using hlen
    have : bytesToInteger rest < 256 ^ 31 := by
      have := bytesToInteger_lt rest (fun x hx => hv x (List.mem_cons_of_mem _ hx))
      rwa [hrl] at this
    rw [bytesToInteger_cons_zero] at hx
    have h31 : (256 : Nat) ^ 31 = 2 ^ 248 := by norm_num
    omega

theorem i2b_of_32bytes (xb : Bytes) (hlen : xb.length = 32)
    (hv : ValidBytes xb) (hx : 2 ^ 248 ≤ bytesToInteger xb) :
    integerToBytes (bytesToInteger xb) = xb :=
  integerToBytes_bytesToInteger xb hv (head_ne_zero_of_big xb hlen hv hx)

theorem i2b_len_32 (x : Nat) (hlo : 2 ^ 248 ≤ x) (hhi : x < 2 ^ 256) :
    (integerToBytes x).length = 32 := by
  have := integerToBytes_len_eq x 31 (by norm_num; omega) (by norm_num; omega)
  simpa using this

theorem compress_eval (xb yb : Bytes) (hlen : xb.length = 32) :
    compressPublicKey (([4] ++ xb) ++ yb) =
      (if bytesToInteger yb % 2 = 1 then [3] else [2]) ++ xb := by
  simp only [compressPublicKey, slice]
  have h33 : ([4] ++ xb).length = 33 := by simp [hlen]
  rw [take_append_len yb 33 h33, drop_append_len yb 33 h33]
  have : ([4] ++ xb).drop 1 = xb := drop_append_len xb 1 rfl
  rw [this]
  split <;> rfl

theorem uncompress_eval (p : Nat) (xb : Bytes) :
    uncompressPublicKey ([p] ++ xb) =
      [4] ++ integerToBytes (bytesToInteger xb) ++
        integerToBytes (
          if ((powMod ((powMod (bytesToInteger xb) 3 secpP + 7) % secpP)
                ((secpP + 1) / 4) secpP : Nat) : Int) % 2 ≠ (p : Int) - 2 then
            pyNegMod (powMod ((powMod (bytesToInteger xb) 3 secpP + 7) % secpP)
              ((secpP + 1) / 4) secpP) secpP
          else
            powMod ((powMod (bytesToInteger xb) 3 secpP + 7) % secpP)
              ((secpP + 1) / 4) secpP) := by
  simp only [uncompressPublicKey]
  have ht : ([p] ++ xb).take 1 = [p] := take_append_len xb 1 rfl
  have hd : ([p] ++ xb).drop 1 = xb := drop_append_len xb 1 rfl
  rw [ht, hd, bytesToInteger_singleton]

set_option maxRecDepth 10000 in
/-- C8 part 1 (amended): compressing the uncompressed form of a valid
33-byte compressed key returns the original, provided `X ≥ 2^248` (so the
minimum-width integer encoder keeps 32 bytes) and, for prefix `0x03`, the
computed modular square root is nonzero. -/
theorem c8_compress_uncompress (p : Nat) (xb : Bytes) (hp : p = 2 ∨ p = 3)
    (hlen : xb.length = 32) (hv : ValidBytes xb)
    (hx : 2 ^ 248 ≤ bytesToInteger xb)
    (hy0 : p = 2 ∨ powMod ((powMod (bytesToInteger xb) 3 secpP + 7) % secpP)
      ((secpP + 1) / 4) secpP ≠ 0) :
    compressPublicKey (uncompressPublicKey ([p] ++ xb)) = [p] ++ xb := by
  have hexp : (secpP + 1) / 4 ≠ 0 := by
    intro h
    rw [Nat.div_eq_zero_iff (by omega)] at h
    have := secpP_gt3
    omega
  revert hy0
  generalize hg : powMod ((powMod (bytesToInteger xb) 3 secpP + 7) % secpP)
    ((secpP + 1) / 4) secpP = y0
  intro hy0
  have hylt : y0 < secpP := hg ▸ powMod_lt _ _ _ secpP_pos hexp
  rw [uncompress_eval, i2b_of_32bytes xb hlen hv hx, hg,
    compress_eval _ _ hlen, bytesToInteger_integerToBytes]
  have hneg : y0 ≠ 0 → pyNegMod y0 secpP = secpP - y0 := by
    intro hne
    rw [pyNegMod, Nat.mod_eq_of_lt hylt, Nat.mod_eq_of_lt (by omega)]
  have hP2 := secpP_odd
  rcases hp with rfl | rfl
  · by_cases hc : ((y0 : Int) % 2 = ((2 : Nat) : Int) - 2)
    · rw [if_neg (not_not_intro hc), if_neg (by omega)]
    · rw [if_pos hc]
      have hodd : y0 % 2 = 1 := by omega
      have hne : y0 ≠ 0 := by omega
      rw [hneg hne, if_neg (by omega)]
  · have hne : y0 ≠ 0 := by
      rcases hy0 with h2 | h
      · exact absurd h2 (by omega)
      · exact h
    by_cases hc : ((y0 : Int) % 2 = ((3 : Nat) : Int) - 2)
    · rw [if_neg (not_not_intro hc), if_pos (by omega)]
    · rw [if_pos hc]
      have heven : y0 % 2 = 0 := by omega
      rw [hneg hne, if_pos (by omega)]

theorem secpP_int_pos : (0 : Int) < (secpP : Int) := by
  exact_mod_cast secpP_pos

/-- Range predicate for curve points as produced by the arithmetic: both
coordinates lie in `[0, P)`. -/
def InRange (q : Int × Int) : Prop :=
  0 ≤ q.1 ∧ q.1 < (secpP : Int) ∧ 0 ≤ q.2 ∧ q.2 < (secpP : Int)

theorem ecAdd_range (a b : Int × Int) : InRange (ecAdd a b) := by
  have hpos := secpP_int_pos
  unfold ecAdd InRange
  dsimp only
  exact ⟨Int.emod_nonneg _ (by omega), Int.emod_lt_of_pos _ hpos,
    Int.emod_nonneg _ (by omega), Int.emod_lt_of_pos _ hpos⟩

theorem ecDouble_range (a : Int × Int) : InRange (ecDouble a) := by
  have hpos := secpP_int_pos
  unfold ecDouble InRange
  dsimp only
  exact ⟨Int.emod_nonneg _ (by omega), Int.emod_lt_of_pos _ hpos,
    Int.emod_nonneg _ (by omega), Int.emod_lt_of_pos _ hpos⟩

theorem gPoint_range : InRange gPoint := by
  unfold InRange gPoint
  refine ⟨by omega, by decide, by omega, by decide⟩

theorem eccMultiply_range (gen : Int × Int) (d : Nat) (q : Int × Int)
    (hgen : InRange gen) (h : eccMultiply gen d = .ok q) : InRange q := by
  rw [eccMultiply] at h
  split at h
  · exact absurd h (fun hh => Except.noConfusion hh)
  · injection h with h
    rw [← h]
    have hfold : ∀ (l : List Nat) (acc : Int × Int), InRange acc →
        InRange (l.foldl (fun q bit =>
          let qd := ecDouble q
          if bit = 1 then ecAdd qd gen else qd) acc) := by
      intro l
      induction l with
      | nil => intro acc hacc; exact hacc
      | cons bit tl ih =>
        intro acc hacc
        rw [List.foldl_cons]
        apply ih
        dsimp only
        by_cases hb : bit = 1
        · rw [if_pos hb]
          exact ecAdd_range _ _
        · rw [if_neg hb]
          exact ecDouble_range _
    exact hfold _ gen hgen

theorem privToPub_uncompressed_shape (sk u : Bytes)
    (h : privateKeyToPublicKey sk PubKeyType.uncompressed = .ok u) :
    ∃ q : Int × Int, eccMultiply gPoint (bytesToInteger sk) = .ok q ∧
      u = [4] ++ integerToBytes q.1.toNat ++ integerToBytes q.2.toNat := by
  rw [privateKeyToPublicKey, except_bind_ok] at h
  obtain ⟨q, hq, h⟩ := h
  simp only [pure, Except.pure] at h
  injection h with h
  exact ⟨q, hq, h.symm⟩

theorem i2b_len_ge (n k : Nat) (h : (integerToBytes n).length = k + 1) :
    256 ^ k ≤ n := by
  have hn : n ≠ 0 := by
    intro h0
    rw [h0] at h
    simp [integerToBytes, natDigitsBE, natDigits, digitsFuel] at h
  have h2 := Nat.base_pow_length_digits_le 256 n (by omega) hn
  rw [integerToBytes, natDigitsBE, List.length_reverse,
    natDigits_eq 256 (by omega)] at h
  rw [h] at h2
  have : (256 : Nat) ^ (k + 1) = 256 * 256 ^ k := by ring
  rw [this] at h2
  exact Nat.le_of_mul_le_mul_left h2 (by omega)

set_option maxRecDepth 10000 in
/-- C8 part 2: for a 65-byte uncompressed public key obtained from
`private_key_to_public_key`, uncompressing its compression returns the
original, given that the `(P+1)/4` square-root recovers `±Y` (which holds
for every on-curve point since `P ≡ 3 (mod 4)`). -/
theorem c8_uncompress_compress (sk u : Bytes)
    (hu : privateKeyToPublicKey sk PubKeyType.uncompressed = .ok u)
    (hlen : u.length = 65)
    (hsqrt : powMod ((powMod (bytesToInteger (slice 1 33 u)) 3 secpP + 7) % secpP)
        ((secpP + 1) / 4) secpP = bytesToInteger (u.drop 33) ∨
      powMod ((powMod (bytesToInteger (slice 1 33 u)) 3 secpP + 7) % secpP)
        ((secpP + 1) / 4) secpP = secpP - bytesToInteger (u.drop 33)) :
    uncompressPublicKey (compressPublicKey u) = u := by
  obtain ⟨q, hq, hshape⟩ := privToPub_uncompressed_shape sk u hu
  obtain ⟨h1, h2, h3, h4⟩ := eccMultiply_range _ _ _ gPoint_range hq
  set qx := q.1.toNat with hqxd
  set qy := q.2.toNat with hqyd
  have hqxP : qx < secpP := by omega
  have hqyP : qy < secpP := by omega
  have hPlt : secpP < 2 ^ 256 := by decide
  have h2256 : (256 : Nat) ^ 32 = 2 ^ 256 := by norm_num
  have hlx : (integerToBytes qx).length ≤ 32 :=
    integerToBytes_len_le _ 32 (by omega)
  have hly : (integerToBytes qy).length ≤ 32 :=
    integerToBytes_len_le _ 32 (by omega)
  have hsum : (integerToBytes qx).length + (integerToBytes qy).length = 64 := by
    rw [hshape] at hlen
    simp [List.length_append] at hlen
    omega
  have hlx32 : (integerToBytes qx).length = 32 := by omega
  have hly32 : (integerToBytes qy).length = 32 := by omega
  have hslx : slice 1 33 u = integerToBytes qx := by
    rw [hshape, slice]
    have h33 : ([4] ++ integerToBytes qx).length = 33 := by
      simp [hlx32]
    rw [take_append_len _ 33 h33, @drop_append_len [4] _ 1 rfl]
  have hsly : u.drop 33 = integerToBytes qy := by
    rw [hshape]
    have h33 : ([4] ++ integerToBytes qx).length = 33 := by
      simp [hlx32]
    rw [drop_append_len _ 33 h33]
  rw [hslx, hsly, bytesToInteger_integerToBytes, bytesToInteger_integerToBytes]
    at hsqrt
  have hexp : (secpP + 1) / 4 ≠ 0 := by
    intro h
    rw [Nat.div_eq_zero_iff (by omega)] at h
    have := secpP_gt3
    omega
  have hP2 := secpP_odd
  rw [hshape, compress_eval _ _ hlx32, bytesToInteger_integerToBytes]
  by_cases hpar : qy % 2 = 1
  · rw [if_pos hpar, uncompress_eval, bytesToInteger_integerToBytes]
    revert hsqrt
    generalize hg : powMod ((powMod qx 3 secpP + 7) % secpP)
      ((secpP + 1) / 4) secpP = y0
    intro hsqrt
    have hylt : y0 < secpP := hg ▸ powMod_lt _ _ _ secpP_pos hexp
    rcases hsqrt with hy | hy
    · rw [if_neg (by omega), hy]
    · have hqy0 : qy ≠ 0 := by omega
      have hy0ne : y0 ≠ 0 := by omega
      rw [if_pos (by omega)]
      have hv : pyNegMod y0 secpP = qy := by
        unfold pyNegMod
        rw [Nat.mod_eq_of_lt hylt, Nat.mod_eq_of_lt (by omega)]
        omega
      rw [hv]
  · rw [if_neg hpar, uncompress_eval, bytesToInteger_integerToBytes]
    revert hsqrt
    generalize hg : powMod ((powMod qx 3 secpP + 7) % secpP)
      ((secpP + 1) / 4) secpP = y0
    intro hsqrt
    have hylt : y0 < secpP := hg ▸ powMod_lt _ _ _ secpP_pos hexp
    rcases hsqrt with hy | hy
    · rw [if_neg (by omega), hy]
    · have hqy0 : qy ≠ 0 := by omega
      have hy0ne : y0 ≠ 0 := by omega
      rw [if_pos (by omega)]
      have hv : pyNegMod y0 secpP = qy := by
        unfold pyNegMod
        rw [Nat.mod_eq_of_lt hylt, Nat.mod_eq_of_lt (by omega)]
        omega
      rw [hv]

/-- C8 (amended): compression round trips.  Part 1: for a valid 33-byte
compressed key (prefix `0x02`/`0x03`, 32-byte X) with `X ≥ 2^248` — the
minimum-width encoder breaks smaller X, see the counterexample — and, for
prefix `0x03`, nonzero computed root, `compress (uncompress c) = c`.
Part 2: for every 65-byte uncompressed key produced by
`private_key_to_public_key` whose X-coordinate square root recovers `±Y`
(true of on-curve points as `P ≡ 3 (mod 4)`),
`uncompress (compress u) = u`. -/
theorem c8_compression_round_trips :
    (∀ (p : Nat) (xb : Bytes), (p = 2 ∨ p = 3) → xb.length = 32 →
      ValidBytes xb → 2 ^ 248 ≤ bytesToInteger xb →
      (p = 2 ∨ powMod ((powMod (bytesToInteger xb) 3 secpP + 7) % secpP)
        ((secpP + 1) / 4) secpP ≠ 0) →
      compressPublicKey (uncompressPublicKey ([p] ++ xb)) = [p] ++ xb) ∧
    (∀ (sk u : Bytes), privateKeyToPublicKey sk PubKeyType.uncompressed = .ok u →
      u.length = 65 →
      (powMod ((powMod (bytesToInteger (slice 1 33 u)) 3 secpP + 7) % secpP)
          ((secpP + 1) / 4) secpP = bytesToInteger (u.drop 33) ∨
        powMod ((powMod (bytesToInteger (slice 1 33 u)) 3 secpP + 7) % secpP)
          ((secpP + 1) / 4) secpP = secpP - bytesToInteger (u.drop 33)) →
      uncompressPublicKey (compressPublicKey u) = u) := by
  constructor
  · intro p xb hp hlen hv hx hy0
    exact c8_compress_uncompress p xb hp hlen hv hx hy0
  · intro sk u hu hlen hsqrt
    exact c8_uncompress_compress sk u hu hlen hsqrt

def xbC8 : Bytes := List.replicate 32 17

def skC8 : Bytes := List.replicate 31 0 ++ [1]

def uC8 : Bytes :=
  match privateKeyToPublicKey skC8 PubKeyType.uncompressed with
  | .ok u => u
  | .error _ => []

set_option maxRecDepth 100000 in
/-- Witness for the amended C8: part 1 at a concrete 32-byte X with prefix
`0x02`, part 2 at the generator point (private key 1). -/
theorem c8_compression_round_trips_witness :
    compressPublicKey (uncompressPublicKey ([2] ++ xbC8)) = [2] ++ xbC8 ∧
    uncompressPublicKey (compressPublicKey uC8) = uC8 :=
  ⟨c8_compression_round_trips.1 2 xbC8 (Or.inl rfl) (by decide) (by decide)
      (by decide) (Or.inl rfl),
   c8_compression_round_trips.2 skC8 uC8 (by decide) (by decide)
      (Or.inl (by decide))⟩

def xC8small : Bytes := List.replicate 31 0 ++ [1]

set_option maxRecDepth 100000 in
/-- C8 counterexample: `x = 1` is on the curve (its square root verifies:
the first conjunct shows `y² ≡ x³ + 7 (mod P)`), yet compressing the
uncompressed form of the valid compressed key `0x02 ‖ X` does not return
the original, because the minimum-width integer encoder drops the leading
zero bytes of `X < 2^248` inside `uncompress_public_key`. -/
theorem c8_counterexample :
    (powMod ((powMod (bytesToInteger xC8small) 3 secpP + 7) % secpP)
        ((secpP + 1) / 4) secpP) ^ 2 % secpP =
      (powMod (bytesToInteger xC8small) 3 secpP + 7) % secpP ∧
    compressPublicKey (uncompressPublicKey ([2] ++ xC8small)) ≠
      [2] ++ xC8small :=
  ⟨by decide, by decide⟩

/-! ### Claim C10: module-level default salt and seed -/

theorem privToPub_valid (sk u : Bytes) (t : PubKeyType)
    (h : privateKeyToPublicKey sk t = .ok u) : ValidBytes u := by
  rw [privateKeyToPublicKey, except_bind_ok] at h
  obtain ⟨q, hq, h⟩ := h
  cases t with
  | uncompressed =>
    simp only [pure, Except.pure] at h
    injection h with h
    rw [← h]
    exact validBytes_append (validBytes_append
      (validBytes_cons 4 (by omega) validBytes_nil) (validBytes_i2b _))
      (validBytes_i2b _)
  | compressed =>
    simp only [pure, Except.pure] at h
    injection h with h
    rw [← h]
    apply validBytes_append
    · split
      · exact validBytes_cons 3 (by omega) validBytes_nil
      · exact validBytes_cons 2 (by omega) validBytes_nil
    · exact validBytes_i2b _

theorem i2b_magicNoLotSeq :
    integerToBytes magicNoLotSeq =
      [0x2c, 0xe9, 0xb3, 0xe1, 0xff, 0x39, 0xe2, 0x53] := by decide

/-- Shape of a successful no-lot/sequence `intermediate_code` call: the
Base58Check envelope embeds the owner salt at bytes 8–16. -/
theorem intermediateCode_shape (pr : Primitives) (pass salt : Bytes)
    (hlen : salt.length = 8) (s : Bytes)
    (h : intermediateCode pr pass none none salt = .ok s) :
    ∃ pp, privateKeyToPublicKey
        (pr.scrypt (pr.nfc pass) salt 16384 8 8 32) PubKeyType.compressed = .ok pp ∧
      s = b58checkEncode pr (integerToBytes magicNoLotSeq ++ salt ++ pp) := by
  unfold intermediateCode at h
  dsimp only at h
  rw [if_neg (by omega), if_neg (by simp [hlen]), if_neg (by simp [truthy]),
    if_neg (by simp [truthy])] at h
  simp only [bind, Except.bind, pure, Except.pure] at h
  cases hpp : privateKeyToPublicKey (pr.scrypt (pr.nfc pass) salt 16384 8 8 32)
      PubKeyType.compressed with
  | error e =>
    rw [hpp] at h
    exact absurd h (fun hh => Except.noConfusion hh)
  | ok pp =>
    rw [hpp] at h
    injection h with h
    exact ⟨pp, rfl, h.symm⟩

theorem slice_8_16_payload (salt pp chk : Bytes) (hlen : salt.length = 8) :
    slice 8 16 ((integerToBytes magicNoLotSeq ++ salt ++ pp) ++ chk) =
      salt := by
  rw [i2b_magicNoLotSeq, slice]
  have hassoc : (([0x2c, 0xe9, 0xb3, 0xe1, 0xff, 0x39, 0xe2, 0x53] ++ salt ++ pp) ++ chk) =
      ([0x2c, 0xe9, 0xb3, 0xe1, 0xff, 0x39, 0xe2, 0x53] ++ salt) ++ (pp ++ chk) := by
    simp [List.append_assoc]
  rw [hassoc]
  have h16 : ([0x2c, 0xe9, 0xb3, 0xe1, 0xff, 0x39, 0xe2, 0x53] ++ salt).length = 16 := by
    simp [hlen]
  rw [take_append_len _ 16 h16,
    @drop_append_len [0x2c, 0xe9, 0xb3, 0xe1, 0xff, 0x39, 0xe2, 0x53] salt 8 rfl]

theorem intermediateCodeDefault_salt (md : ModuleDefaults) (pr : Primitives)
    (hpr : GoodPrims pr) (hlen : md.ownerSaltDefault.length = 8)
    (hv : ValidBytes md.ownerSaltDefault) (pass s : Bytes)
    (h : intermediateCodeDefault md pr pass none none = .ok s) :
    ∃ raw, b58decode s = some raw ∧ slice 8 16 raw = md.ownerSaltDefault := by
  obtain ⟨pp, hpp, hs⟩ := intermediateCode_shape pr pass md.ownerSaltDefault hlen s h
  have hppv : ValidBytes pp := privToPub_valid _ _ _ hpp
  have hval : ValidBytes ((integerToBytes magicNoLotSeq ++ md.ownerSaltDefault ++ pp) ++
      getChecksum pr (integerToBytes magicNoLotSeq ++ md.ownerSaltDefault ++ pp)) :=
    validBytes_append (validBytes_append (validBytes_append (validBytes_i2b _) hv) hppv)
      (getChecksum_valid pr hpr _)
  refine ⟨(integerToBytes magicNoLotSeq ++ md.ownerSaltDefault ++ pp) ++
    getChecksum pr (integerToBytes magicNoLotSeq ++ md.ownerSaltDefault ++ pp),
    ?_, ?_⟩
  · rw [hs, b58checkEncode, b58decode_encode _ hval]
  · exact slice_8_16_payload _ _ _ hlen

/-- C10: the default `owner_salt` and `seed` are module-level values
(`os.urandom` runs once at import), so any two calls that omit the argument
share them: two default `intermediate_code` calls embed the same 8-byte
owner entropy even for different passphrases, and two default
`create_new_encrypted_wif` calls use the same 24-byte seed. -/
theorem c10_module_level_defaults :
    (∀ (md : ModuleDefaults) (pr : Primitives), GoodPrims pr →
      md.ownerSaltDefault.length = 8 → ValidBytes md.ownerSaltDefault →
      ∀ pass1 pass2 s1 s2,
      intermediateCodeDefault md pr pass1 none none = .ok s1 →
      intermediateCodeDefault md pr pass2 none none = .ok s2 →
      ∃ raw1 raw2, b58decode s1 = some raw1 ∧ b58decode s2 = some raw2 ∧
        slice 8 16 raw1 = md.ownerSaltDefault ∧
        slice 8 16 raw2 = md.ownerSaltDefault) ∧
    (∀ (md : ModuleDefaults) (pr : Primitives), GoodPrims pr →
      ∀ ip1 ip2 pkt1 pkt2 net1 net2 r1 r2,
      createNewEncryptedWifDefault md pr ip1 pkt1 net1 = .ok r1 →
      createNewEncryptedWifDefault md pr ip2 pkt2 net2 = .ok r2 →
      r1.seed = md.seedDefault ∧ r2.seed = md.seedDefault ∧
        r1.seed = r2.seed) := by
  constructor
  · intro md pr hpr hlen hv pass1 pass2 s1 s2 h1 h2
    obtain ⟨raw1, hd1, hs1⟩ := intermediateCodeDefault_salt md pr hpr hlen hv pass1 s1 h1
    obtain ⟨raw2, hd2, hs2⟩ := intermediateCodeDefault_salt md pr hpr hlen hv pass2 s2 h2
    exact ⟨raw1, raw2, hd1, hd2, hs1, hs2⟩
  · intro md pr hpr ip1 ip2 pkt1 pkt2 net1 net2 r1 r2 h1 h2
    have e1 := (createNew_ok_shape pr hpr ip1 pkt1 md.seedDefault net1 r1 h1).1
    have e2 := (createNew_ok_shape pr hpr ip2 pkt2 md.seedDefault net2 r2 h2).1
    exact ⟨e1, e2, by rw [e1, e2]⟩

def mdTest : ModuleDefaults :=
  { ownerSaltDefault := [1, 2, 3, 4, 5, 6, 7, 8]
    seedDefault := 171 :: (List.replicate 7 0 ++ [205] ++ List.replicate 15 0) }

def icW1 : Bytes :=
  match intermediateCodeDefault mdTest toyPrims [97] none none with
  | .ok s => s
  | .error _ => []

def icW2 : Bytes :=
  match intermediateCodeDefault mdTest toyPrims [98] none none with
  | .ok s => s
  | .error _ => []

def rW1 : NewEncryptedWif :=
  match createNewEncryptedWifDefault mdTest toyPrims icW1 PubKeyType.compressed Network.mainnet with
  | .ok r => r
  | .error _ => ⟨[], [], [], [], PubKeyType.compressed, []⟩

def rW2 : NewEncryptedWif :=
  match createNewEncryptedWifDefault mdTest toyPrims icW2 PubKeyType.compressed Network.testnet with
  | .ok r => r
  | .error _ => ⟨[], [], [], [], PubKeyType.compressed, []⟩

set_option maxRecDepth 100000 in
/-- Witness for C10 at concrete module defaults, passphrases and mints. -/
theorem c10_module_level_defaults_witness :
    (∃ raw1 raw2, b58decode icW1 = some raw1 ∧ b58decode icW2 = some raw2 ∧
      slice 8 16 raw1 = mdTest.ownerSaltDefault ∧
      slice 8 16 raw2 = mdTest.ownerSaltDefault) ∧
    rW1.seed = mdTest.seedDefault ∧ rW2.seed = mdTest.seedDefault ∧
      rW1.seed = rW2.seed :=
  ⟨c10_module_level_defaults.1 mdTest toyPrims toyPrims_good (by decide)
      (by decide) [97] [98] icW1 icW2 (by decide) (by decide),
   c10_module_level_defaults.2 mdTest toyPrims toyPrims_good icW1 icW2
      PubKeyType.compressed PubKeyType.compressed Network.mainnet
      Network.testnet rW1 rW2 (by decide) (by decide)⟩

/-! ### Claims C1, C2, C3, C5: concrete failing runs -/

def skC1 : Bytes := List.replicate 31 0 ++ [1]

def wifC1 : Bytes :=
  match privateKeyToWif toyPrims skC1 WifType.wif Network.mainnet with
  | .ok w => w
  | .error _ => []

set_option maxRecDepth 100000 in
/-- C1: a valid WIF (private key 1, uncompressed, mainnet) on which
`bip38_encrypt` raises inside AES: the scrypt-derived mask bytes here
equal the key half, the XOR is `0`, and the minimum-width integer encoder
turns it into an empty block, which pyaes rejects — so
`bip38_decrypt (bip38_encrypt wif …) …` cannot return the original WIF. -/
theorem c1_encrypt_aes_width_failure :
    decodeWif wifC1 = .ok (skC1, WifType.wif, [0, 0, 0, 0], Network.mainnet) ∧
    bip38Encrypt toyPrims wifC1 [] Network.mainnet = .error .aesBlockLength :=
  ⟨by decide, by decide⟩

def icC2 : Bytes :=
  match intermediateCode toyPrims [99] none none [9, 9, 9, 9, 9, 9, 9, 9] with
  | .ok s => s
  | .error _ => []

def seedC2 : Bytes := 0 :: 1 :: List.replicate 22 0

set_option maxRecDepth 100000 in
/-- C2: a valid intermediate code and a 24-byte seed whose leading byte is
zero make `create_new_encrypted_wif` raise inside AES (the seed half XOR
derived half has a leading zero byte, so the minimum-width encoder
produces a 15-byte block), so no encrypted WIF is returned at all. -/
theorem c2_mint_aes_width_failure :
    seedC2.length = 24 ∧
    intermediateCode toyPrims [99] none none [9, 9, 9, 9, 9, 9, 9, 9] = .ok icC2 ∧
    createNewEncryptedWif toyPrims icC2 PubKeyType.compressed seedC2
      Network.mainnet = .error .aesBlockLength :=
  ⟨by decide, by decide, by decide⟩

def skC3 : Bytes := List.replicate 31 0 ++ [2]

def wifC3 : Bytes :=
  match privateKeyToWif toyPrims skC3 WifType.wifCompressed Network.testnet with
  | .ok w => w
  | .error _ => []

set_option maxRecDepth 100000 in
/-- C3: the value fed to the AES block operation is NOT encoded as a fixed
16-byte big-endian string: the encoder is minimum-width (first conjunct: a
16-byte value with a leading zero byte re-encodes to 15 bytes), and at a
concrete key/passphrase `bip38_encrypt` consequently dies in pyaes with a
wrong block length instead of producing a ciphertext. -/
theorem c3_aes_block_width_bug :
    (integerToBytes (bytesToInteger (0 :: List.replicate 15 255))).length = 15 ∧
    bip38Encrypt toyPrims wifC3 [] Network.testnet = .error .aesBlockLength :=
  ⟨by decide, by decide⟩

/-- C5: `intermediate_code` with `lot = 100000`, `sequence = 0` and a
4-byte owner salt is rejected with an `InvalidParameter` error for every
primitive bundle (the truthiness check `not sequence` misfires on `0`),
although the docstring and the spec allow `0 ≤ sequence ≤ 4095`. -/
theorem c5_sequence_zero_rejected (pr : Primitives) :
    intermediateCode pr [113] (some 100000) (some 0) [1, 2, 3, 4] =
      .error .invalidParameter := rfl

def rawC7w : Bytes := [0xef] ++ List.replicate 33 7 ++ [1, 2, 3, 4]

/-- Witness for the amended C7 at a concrete 38-byte envelope. -/
theorem c7_decode_wif_failures_witness :
    (∃ r, decodeWif (b58encode rawC7w) = .ok r) ↔
      ((rawC7w.take 1 = [0x80] ∨ rawC7w.take 1 = [0xef]) ∧
        (rawC7w.length = 37 ∨ rawC7w.length = 38)) :=
  c7_decode_wif_failures rawC7w (by decide)

end QtumBip38
